import Mathlib

/-!
# FileSystemSize: top-N selection and bounded-depth directory scan

A shallow embedding of `src/multi.cpp` (fork-join scan) and `src/main.cpp`
(level-by-level scan), followed by the properties proved about them.

## Modelling conventions

* A file size is the `double` obtained by `static_cast<double>(dir_entry.file_size())`.
  Such a value is a non-negative integer, never NaN, so it is represented by a `Nat`
  and the comparisons `<` and `>` on doubles are the comparisons of `Nat`.
* `std::priority_queue<FileSizePair, std::vector<FileSizePair>, std::greater<>>` is a
  min-queue for the lexicographic `operator<` of `std::pair<double, std::string>`.
  It is represented by the list of its elements in ascending order: `emplace` is an
  ordered insertion, `top` is the head, `pop` removes the head.  `top()` on an empty
  queue is undefined behaviour and is represented by `none`.
* `std::string` comparison is the lexicographic comparison of the character codes.
* The comparison `top_files.size() < num_files_output` compares a `size_t` with an
  `int`: the `int` is converted to `size_t`, i.e. reduced modulo `2^64`.
* A directory is represented by what `fs::directory_iterator` yields for it, in
  iteration order (`Listing`).  When the construction of the iterator sets `ec`, the
  iterator is the end iterator, so such a directory is one with an empty listing; the
  statements `if (ec) continue;` (multi.cpp) and `if (ec) return;` (main.cpp) then have
  no effect of their own.
* An entry for which `dir_entry.is_directory()` holds is a `Listing.dir`; its flag
  `isdir` is the outcome of the later test `fs::is_directory(root_dir, ec) && !ec` made
  by `process_directory` on that path.  Every other entry is a `Listing.file`, whose
  `size` is `none` when `dir_entry.file_size()` throws.  The call
  `dir_entry.is_directory()` itself is taken not to throw.
* A path is the string `root_dir / name` built by `joinPath` with the Windows separator,
  `ROOT_DIR` being `C:\\`.
* `std::async` children of one directory are run to completion one after the other in
  spawn order.  Every update of the shared vectors and counters is made under the mutex,
  so any other schedule produces the same counters and a permutation of the same vectors.
* `depth - 1` is computed on `int`; it is reduced to the 32-bit range (`wrapInt32`).
* `file_count` and `dir_count` are `size_t` counters of entries that were enumerated from
  the file system; they are represented by `Nat`.
-/

/-! ## Strings, paths and machine integers -/

/-- Lexicographic comparison `a <= b` of two character sequences by character code. -/
def lexLe : List Char → List Char → Bool
  | [], _ => true
  | _ :: _, [] => false
  | a :: as, b :: bs =>
      decide (a.toNat < b.toNat) || (decide (a.toNat = b.toNat) && lexLe as bs)

/-- The test `path.filename().string().rfind("$", 0) == 0`: the name starts with `$`. -/
def startsWithDollar (name : String) : Bool :=
  match name.data with
  | c :: _ => c == '$'
  | [] => false

/-- The path `root_dir / name` of a directory entry (Windows separator). -/
def joinPath (root_dir name : String) : String :=
  if root_dir.data.getLast? = some '\\' ∨ root_dir.data.getLast? = some '/' then
    root_dir ++ name
  else
    root_dir ++ "\\" ++ name

/-- Conversion of an `int` to `size_t` (64 bits). -/
def toSizeT (n : Int) : Nat := (n % 18446744073709551616).toNat

/-- Reduction of an integer to the range of a 32-bit `int`. -/
def wrapInt32 (n : Int) : Int := (n + 2147483648) % 4294967296 - 2147483648

/-- The constant `ROOT_DIR` of both programs. -/
def ROOT_DIR : String := "C:\\"

/-! ## Top-N selection (`main`, multi.cpp lines 101-119, main.cpp lines 97-115) -/

/-- The element type `using FileSizePair = std::pair<double, std::string>`. -/
abbrev FileSizePair := Nat × String

/-- The order `a <= b` of `std::pair<double, std::string>`: by size, then by name. -/
def pairLe (a b : FileSizePair) : Bool :=
  decide (a.1 < b.1) || (decide (a.1 = b.1) && lexLe a.2.data b.2.data)

/-- The call `top_files.emplace(size, filename)` on the ascending list of the queue. -/
def heapPush (x : FileSizePair) : List FileSizePair → List FileSizePair
  | [] => [x]
  | y :: ys => if pairLe x y then x :: y :: ys else y :: heapPush x ys

/-- One iteration of `for (const auto& [filename, size] : fsizes)`. -/
def selectStep (num_files_output : Int) (top_files : List FileSizePair)
    (obs : String × Nat) : Option (List FileSizePair) :=
  if top_files.length < toSizeT num_files_output then
    some (heapPush (obs.2, obs.1) top_files)
  else
    match top_files with
    | [] => none
    | m :: rest =>
        if obs.2 > m.1 then some (heapPush (obs.2, obs.1) rest) else some (m :: rest)

/-- The loop `for (const auto& [filename, size] : fsizes)` from a given queue. -/
def selectLoop (num_files_output : Int) :
    List (String × Nat) → List FileSizePair → Option (List FileSizePair)
  | [], top_files => some top_files
  | obs :: rest, top_files =>
      match selectStep num_files_output top_files obs with
      | none => none
      | some top_files1 => selectLoop num_files_output rest top_files1

/-- The loop `while (!top_files.empty())` that moves `top()` to `sorted_files`. -/
def drain : List FileSizePair → List FileSizePair
  | [] => []
  | m :: rest => m :: drain rest

/-- The selection of `main`: fill the queue, drain it, reverse. -/
def selectTopFiles (fsizes : List (String × Nat)) (num_files_output : Int) :
    Option (List FileSizePair) :=
  match selectLoop num_files_output fsizes [] with
  | none => none
  | some top_files => some (drain top_files).reverse

/-- The sizes of a list of observations sorted in descending order. -/
def sizesDescending (fsizes : List (String × Nat)) : List Nat :=
  (fsizes.map Prod.snd).insertionSort (fun a b => a ≥ b)

/-- The observation `(filename, size)` as the pair `(size, filename)` put in the queue. -/
def toPair (obs : String × Nat) : FileSizePair := (obs.2, obs.1)

/-! ## The file system seen by the scan -/

/-- The entries that `fs::directory_iterator` yields for one directory, in iteration
order.  `file name size` is an entry that is not a directory, `size` being `none` when
`file_size()` throws; `dir name isdir sub` is an entry that is a directory with listing
`sub`, `isdir` being the outcome of `fs::is_directory(path, ec) && !ec`. -/
inductive Listing where
  | nil : Listing
  | file (name : String) (size : Option Nat) (rest : Listing) : Listing
  | dir (name : String) (isdir : Bool) (sub : Listing) (rest : Listing) : Listing
deriving DecidableEq

/-- A directory of the file system: its path, the outcome of the accessibility test
and its listing (in main.cpp, an element of `std::vector<fs::directory_entry> dirs`). -/
structure DirEntry where
  path : String
  isdir : Bool
  listing : Listing
deriving DecidableEq

/-- The shared results of multi.cpp: `fsizes`, `error_files`, `file_count`, `dir_count`. -/
structure Accumulator where
  fsizes : List (String × Nat)
  error_files : List String
  file_count : Nat
  dir_count : Nat
deriving DecidableEq

/-- The state of `main` before the scan: empty vectors, counters at 0. -/
def Accumulator.empty : Accumulator := ⟨[], [], 0, 0⟩

/-- The results `a` followed by the results `b`. -/
def Accumulator.merge (a b : Accumulator) : Accumulator :=
  ⟨a.fsizes ++ b.fsizes, a.error_files ++ b.error_files, a.file_count + b.file_count,
    a.dir_count + b.dir_count⟩

/-! ## multi.cpp: `process_directory` -/

namespace Multi

/-- How the range-for loop over the entries ends: by the `return` inside it, or by
running off the end with the collected `subdirs`. -/
inductive LoopExit where
  | returned (acc : Accumulator) : LoopExit
  | finished (subdirs : List String) (acc : Accumulator) : LoopExit
deriving DecidableEq

/-- The loop `for (const auto& dir_entry : fs::directory_iterator(root_dir, ...))`
(multi.cpp lines 44-67). -/
def entryLoop (root_dir : String) (depth : Int) :
    Listing → List String → Accumulator → LoopExit
  | .nil, subdirs, acc => .finished subdirs acc
  | .file name size rest, subdirs, acc =>
      if depth = 0 then .returned acc
      else if startsWithDollar name then entryLoop root_dir depth rest subdirs acc
      else
        match size with
        | some file_size =>
            entryLoop root_dir depth rest subdirs
              { acc with
                fsizes := acc.fsizes ++ [(joinPath root_dir name, file_size)]
                file_count := acc.file_count + 1 }
        | none =>
            entryLoop root_dir depth rest subdirs
              { acc with error_files := acc.error_files ++ [joinPath root_dir name] }
  | .dir name _ _ rest, subdirs, acc =>
      if depth = 0 then .returned acc
      else if startsWithDollar name then entryLoop root_dir depth rest subdirs acc
      else entryLoop root_dir depth rest (subdirs ++ [joinPath root_dir name]) acc

/-- The body of `process_directory` (multi.cpp lines 33-77), the two loops over
`subdirs` and `futures` being given as `children`. -/
def processWith (children : Accumulator → Accumulator) (root_dir : String) (depth : Int)
    (isdir : Bool) (l : Listing) (acc : Accumulator) : Accumulator :=
  if !isdir then acc
  else
    match entryLoop root_dir depth l [] { acc with dir_count := acc.dir_count + 1 } with
    | .returned acc1 => acc1
    | .finished _ acc1 => children acc1

/-- The loops `for (const auto& subdir : subdirs)` and `for (auto& future : futures)`
(multi.cpp lines 70-77): `process_directory(subdir, depth-1, ...)` on every entry of
the listing that the entry loop pushed to `subdirs`, in that order (the paths pushed
are given by `Multi.entryLoop_of_ne`, the entries visited by `Multi.spawnAll_eq_foldl`). -/
def spawnAll (root_dir : String) (depth : Int) : Listing → Accumulator → Accumulator
  | .nil, acc => acc
  | .file _ _ rest, acc => spawnAll root_dir depth rest acc
  | .dir name isdir sub rest, acc =>
      if startsWithDollar name then spawnAll root_dir depth rest acc
      else
        spawnAll root_dir depth rest
          (processWith (spawnAll (joinPath root_dir name) (wrapInt32 (depth - 1)) sub)
            (joinPath root_dir name) (wrapInt32 (depth - 1)) isdir sub acc)

/-- The function `process_directory(root_dir, depth, fsizes, error_files, file_count,
dir_count)` of multi.cpp on the directory `root_dir` with listing `l`. -/
def process_directory (root_dir : String) (depth : Int) (isdir : Bool) (l : Listing)
    (acc : Accumulator) : Accumulator :=
  processWith (spawnAll root_dir depth l) root_dir depth isdir l acc

/-- The call of `main`: `process_directory` on empty vectors and zero counters. -/
def scan (root_dir : String) (depth : Int) (isdir : Bool) (l : Listing) : Accumulator :=
  process_directory root_dir depth isdir l Accumulator.empty

/-- The scan `Multi.scan` of the directory `e`. -/
def scanDir (depth : Int) (e : DirEntry) : Accumulator :=
  scan e.path depth e.isdir e.listing

end Multi

/-! ## main.cpp: `process_directory` and the level loop of `main` -/

namespace Main

/-- The vectors `dirs` (or `next_dirs`), `fsizes` and `error_files` of main.cpp. -/
structure State where
  dirs : List DirEntry
  fsizes : List (String × Nat)
  error_files : List String
deriving DecidableEq

/-- The loop `for (const auto& dir_entry : iter)` (main.cpp lines 49-64). -/
def entryLoop (root_dir : String) : Listing → State → State
  | .nil, s => s
  | .file name size rest, s =>
      if startsWithDollar name then entryLoop root_dir rest s
      else
        match size with
        | some file_size =>
            entryLoop root_dir rest
              { s with fsizes := s.fsizes ++ [(joinPath root_dir name, file_size)] }
        | none =>
            entryLoop root_dir rest
              { s with error_files := s.error_files ++ [joinPath root_dir name] }
  | .dir name isdir sub rest, s =>
      if startsWithDollar name then entryLoop root_dir rest s
      else
        entryLoop root_dir rest
          { s with dirs := s.dirs ++ [⟨joinPath root_dir name, isdir, sub⟩] }

/-- The function `process_directory(root_dir, dirs, fsizes, error_files)` of main.cpp. -/
def process_directory (root_dir : String) (isdir : Bool) (l : Listing) (s : State) :
    State :=
  if !isdir then s else entryLoop root_dir l s

/-- The test `sub_dir == "C:\\Documents and Settings" || sub_dir == "C:\\Recovery" ||
sub_dir == "C:\\Windows"` (main.cpp line 87). -/
def excluded (sub_dir : String) : Bool :=
  sub_dir == "C:\\Documents and Settings" || sub_dir == "C:\\Recovery"
    || sub_dir == "C:\\Windows"

/-- The loop `for (auto it = dirs.begin(); it != dirs.end(); )` (main.cpp lines 85-93);
`s.dirs` is `next_dirs`. -/
def levelPass : List DirEntry → State → State
  | [], s => s
  | e :: rest, s =>
      if excluded e.path then levelPass rest s
      else levelPass rest (process_directory e.path e.isdir e.listing s)

/-- The loop `for (int j = 1; j < depth && !dirs.empty(); j++)` (main.cpp lines 83-95);
`rounds` is the number `depth - j` of values of `j` still below `depth`. -/
def levelLoop : Nat → State → State
  | 0, s => s
  | rounds + 1, s =>
      if s.dirs.isEmpty then s
      else levelLoop rounds (levelPass s.dirs { s with dirs := [] })

/-- The scan of `main`: `process_directory(ROOT_DIR, ...)`, then the level loop. -/
def scan (depth : Int) (isdir : Bool) (l : Listing) : State :=
  levelLoop (depth - 1).toNat (process_directory ROOT_DIR isdir l ⟨[], [], []⟩)

end Main

/-! ## Reference notions on the directory tree -/

/-- The observations of the immediate files of a directory: the entries that are not
directories, whose name does not start with `$` and whose size can be read. -/
def filesOf (root_dir : String) : Listing → List (String × Nat)
  | .nil => []
  | .file name size rest =>
      if startsWithDollar name then filesOf root_dir rest
      else
        match size with
        | some file_size => (joinPath root_dir name, file_size) :: filesOf root_dir rest
        | none => filesOf root_dir rest
  | .dir _ _ _ rest => filesOf root_dir rest

/-- The paths of the immediate files of a directory whose name does not start with
`$` and whose size cannot be read. -/
def errorsOf (root_dir : String) : Listing → List String
  | .nil => []
  | .file name size rest =>
      if startsWithDollar name then errorsOf root_dir rest
      else
        match size with
        | some _ => errorsOf root_dir rest
        | none => joinPath root_dir name :: errorsOf root_dir rest
  | .dir _ _ _ rest => errorsOf root_dir rest

/-- What the scan of one accessible directory records from its own listing: its
readable files, its unreadable files, and the directory itself in `dir_count`. -/
def immediate (root_dir : String) (l : Listing) : Accumulator :=
  ⟨filesOf root_dir l, errorsOf root_dir l, (filesOf root_dir l).length, 1⟩

/-- The immediate subdirectories of a directory whose name does not start with `$`. -/
def subdirsOf (root_dir : String) : Listing → List DirEntry
  | .nil => []
  | .file _ _ rest => subdirsOf root_dir rest
  | .dir name isdir sub rest =>
      if startsWithDollar name then subdirsOf root_dir rest
      else ⟨joinPath root_dir name, isdir, sub⟩ :: subdirsOf root_dir rest

/-- The directories that a scan of `e` goes on to from `e`: its immediate
subdirectories whose name does not start with `$`, none when `e` itself fails the
accessibility test. -/
def children (e : DirEntry) : List DirEntry :=
  if e.isdir then subdirsOf e.path e.listing else []

/-- The directories at level `k` below `e` (level 0 is `e` itself) that pass the
accessibility test and are reached from `e` through directories that pass it, none
below `e` having a name that starts with `$`. -/
def dirsAtLevel : Nat → DirEntry → List DirEntry
  | 0, e => if e.isdir then [e] else []
  | k + 1, e => (children e).flatMap (dirsAtLevel k)

/-- The directories of `dirsAtLevel` at the levels `0 .. d`. -/
def countedDirs (d : Nat) (e : DirEntry) : List DirEntry :=
  (List.range (d + 1)).flatMap (fun k => dirsAtLevel k e)

/-- The observations of the immediate files of the directories at level `k` below `e`. -/
def filesAtLevel (k : Nat) (e : DirEntry) : List (String × Nat) :=
  (dirsAtLevel k e).flatMap (fun c => filesOf c.path c.listing)

/-- The unreadable immediate files of the directories at level `k` below `e`. -/
def errorsAtLevel (k : Nat) (e : DirEntry) : List String :=
  (dirsAtLevel k e).flatMap (fun c => errorsOf c.path c.listing)

/-- The path reached from `root_dir` by going down through `names`. -/
def pathFrom (root_dir : String) (names : List String) : String :=
  names.foldl joinPath root_dir

/-- The listing without the entries, at any level, whose name starts with `$`. -/
def stripDollar : Listing → Listing
  | .nil => .nil
  | .file name size rest =>
      if startsWithDollar name then stripDollar rest
      else .file name size (stripDollar rest)
  | .dir name isdir sub rest =>
      if startsWithDollar name then stripDollar rest
      else .dir name isdir (stripDollar sub) (stripDollar rest)

/-- The directory `e` without the entries, at any level, whose name starts with `$`. -/
def stripDir (e : DirEntry) : DirEntry := ⟨e.path, e.isdir, stripDollar e.listing⟩

/-- Whether no directory of the tree below `root_dir`, reached through directories
whose name does not start with `$`, has one of the paths excluded by main.cpp. -/
def noExcludedDirs (root_dir : String) : Listing → Bool
  | .nil => true
  | .file _ _ rest => noExcludedDirs root_dir rest
  | .dir name _ sub rest =>
      (startsWithDollar name
        || (!Main.excluded (joinPath root_dir name)
            && noExcludedDirs (joinPath root_dir name) sub))
      && noExcludedDirs root_dir rest

/-- The number of entries of a listing, at all levels. -/
def Listing.size : Listing → Nat
  | .nil => 0
  | .file _ _ rest => 1 + rest.size
  | .dir _ _ sub rest => 1 + sub.size + rest.size

/-- The relation between a listing and the same listing without one file whose size
query fails and is made by `process_directory(root_dir, depth)`: the file `name` is an
immediate entry of the directory `parent`, its name does not start with `$`, and
`parent` is `root_dir` or is reached from it through accessible directories whose name
does not start with `$`, all of them, `parent` included, scanned with a depth that is
not 0. -/
inductive UnreadableAt :
    String → Int → Listing → Listing → String → String → Prop
  | here (root_dir : String) (depth : Int) (name : String) (rest : Listing) :
      depth ≠ 0 → startsWithDollar name = false →
      UnreadableAt root_dir depth (.file name none rest) rest root_dir name
  | after_file (root_dir : String) (depth : Int) (n : String) (size : Option Nat)
      (rest rest1 : Listing) (parent name : String) :
      UnreadableAt root_dir depth rest rest1 parent name →
      UnreadableAt root_dir depth (.file n size rest) (.file n size rest1) parent name
  | after_dir (root_dir : String) (depth : Int) (n : String) (isdir : Bool)
      (sub rest rest1 : Listing) (parent name : String) :
      UnreadableAt root_dir depth rest rest1 parent name →
      UnreadableAt root_dir depth (.dir n isdir sub rest) (.dir n isdir sub rest1)
        parent name
  | inside (root_dir : String) (depth : Int) (n : String) (sub sub1 rest : Listing)
      (parent name : String) :
      depth ≠ 0 → startsWithDollar n = false →
      UnreadableAt (joinPath root_dir n) (wrapInt32 (depth - 1)) sub sub1 parent name →
      UnreadableAt root_dir depth (.dir n true sub rest) (.dir n true sub1 rest)
        parent name

/-! ## Properties of the top-N selection -/

theorem lexLe_total (a b : List Char) : lexLe a b = true ∨ lexLe b a = true := by
  induction a generalizing b with
  | nil => left; cases b <;> rfl
  | cons x xs ih =>
    cases b with
    | nil => right; rfl
    | cons y ys =>
      simp only [lexLe, Bool.or_eq_true, Bool.and_eq_true, decide_eq_true_eq]
      rcases Nat.lt_trichotomy x.toNat y.toNat with h | h | h
      · exact Or.inl (Or.inl h)
      · rcases ih ys with h1 | h1
        · exact Or.inl (Or.inr ⟨h, h1⟩)
        · exact Or.inr (Or.inr ⟨h.symm, h1⟩)
      · exact Or.inr (Or.inl h)

theorem lexLe_trans (a b c : List Char) (hab : lexLe a b = true) (hbc : lexLe b c = true) :
    lexLe a c = true := by
  induction a generalizing b c with
  | nil => cases c <;> rfl
  | cons x xs ih =>
    cases b with
    | nil => simp [lexLe] at hab
    | cons y ys =>
      cases c with
      | nil => simp [lexLe] at hbc
      | cons z zs =>
        simp only [lexLe, Bool.or_eq_true, Bool.and_eq_true, decide_eq_true_eq] at hab hbc ⊢
        rcases hab with h1 | ⟨h1, h1r⟩ <;> rcases hbc with h2 | ⟨h2, h2r⟩
        · exact Or.inl (by omega)
        · exact Or.inl (by omega)
        · exact Or.inl (by omega)
        · exact Or.inr ⟨by omega, ih ys zs h1r h2r⟩

theorem pairLe_total (a b : FileSizePair) : pairLe a b = true ∨ pairLe b a = true := by
  simp only [pairLe, Bool.or_eq_true, Bool.and_eq_true, decide_eq_true_eq]
  rcases Nat.lt_trichotomy a.1 b.1 with h | h | h
  · exact Or.inl (Or.inl h)
  · rcases lexLe_total a.2.data b.2.data with h1 | h1
    · exact Or.inl (Or.inr ⟨h, h1⟩)
    · exact Or.inr (Or.inr ⟨h.symm, h1⟩)
  · exact Or.inr (Or.inl h)

theorem pairLe_trans (a b c : FileSizePair) (hab : pairLe a b = true)
    (hbc : pairLe b c = true) : pairLe a c = true := by
  simp only [pairLe, Bool.or_eq_true, Bool.and_eq_true, decide_eq_true_eq] at hab hbc ⊢
  rcases hab with h1 | ⟨h1, h1r⟩ <;> rcases hbc with h2 | ⟨h2, h2r⟩
  · exact Or.inl (by omega)
  · exact Or.inl (by omega)
  · exact Or.inl (by omega)
  · exact Or.inr ⟨by omega, lexLe_trans _ _ _ h1r h2r⟩

theorem pairLe_fst (a b : FileSizePair) (h : pairLe a b = true) : a.1 ≤ b.1 := by
  simp only [pairLe, Bool.or_eq_true, Bool.and_eq_true, decide_eq_true_eq] at h
  rcases h with h | ⟨h, _⟩ <;> omega

theorem heapPush_perm (x : FileSizePair) (h : List FileSizePair) :
    (heapPush x h).Perm (x :: h) := by
  induction h with
  | nil => exact List.Perm.refl _
  | cons y ys ih =>
    unfold heapPush
    split
    · exact List.Perm.refl _
    · exact (List.Perm.cons y ih).trans (List.Perm.swap x y ys)

theorem heapPush_length (x : FileSizePair) (h : List FileSizePair) :
    (heapPush x h).length = h.length + 1 := by
  simpa using (heapPush_perm x h).length_eq

theorem heapPush_sorted (x : FileSizePair) (h : List FileSizePair)
    (hs : h.Pairwise (fun a b => pairLe a b = true)) :
    (heapPush x h).Pairwise (fun a b => pairLe a b = true) := by
  induction h with
  | nil => simp [heapPush]
  | cons y ys ih =>
    rw [List.pairwise_cons] at hs
    unfold heapPush
    split
    · rename_i hxy
      refine List.Pairwise.cons ?_ (List.Pairwise.cons hs.1 hs.2)
      intro z hz
      rcases List.mem_cons.1 hz with rfl | hz
      · exact hxy
      · exact pairLe_trans _ _ _ hxy (hs.1 z hz)
    · rename_i hxy
      refine List.Pairwise.cons ?_ (ih hs.2)
      intro z hz
      rcases List.mem_cons.1 ((heapPush_perm x ys).subset hz) with rfl | hz
      · rcases pairLe_total z y with h1 | h1
        · exact absurd h1 hxy
        · exact h1
      · exact hs.1 z hz

theorem drain_eq (h : List FileSizePair) : drain h = h := by
  induction h with
  | nil => rfl
  | cons y ys ih => simp [drain, ih]

theorem toSizeT_of_pos (n : Int) (h1 : 1 ≤ n) (h2 : n ≤ 2147483647) :
    toSizeT n = n.toNat := by
  unfold toSizeT
  congr 1
  omega

/-- The invariant of the selection loop, for a capacity `N` in `1 .. INT_MAX`: from a
queue `H` that is sorted, holds `min N seen` elements and dominates the discarded
observations `D`, the loop ends in such a queue again, and nothing is lost. -/
theorem selectLoop_invariant (N : Int) (h1 : 1 ≤ N) (h2 : N ≤ 2147483647)
    (obs : List (String × Nat)) :
    ∀ H D : List FileSizePair,
      H.Pairwise (fun a b => pairLe a b = true) →
      (∀ d ∈ D, ∀ h ∈ H, d.1 ≤ h.1) →
      H.length = min N.toNat (H.length + D.length) →
      ∃ H1 D1 : List FileSizePair,
        selectLoop N obs H = some H1 ∧
        H1.Pairwise (fun a b => pairLe a b = true) ∧
        (∀ d ∈ D1, ∀ h ∈ H1, d.1 ≤ h.1) ∧
        H1.length = min N.toNat (H1.length + D1.length) ∧
        (H1 ++ D1).Perm (H ++ D ++ obs.map toPair) := by
  have hN : 1 ≤ N.toNat := by omega
  induction obs with
  | nil =>
    intro H D hs hb hl
    exact ⟨H, D, rfl, hs, hb, hl, by simp⟩
  | cons o os ih =>
    intro H D hs hb hl
    simp only [selectLoop, selectStep, toSizeT_of_pos N h1 h2]
    by_cases hlt : H.length < N.toNat
    · have hD : D = [] := by
        apply List.eq_nil_of_length_eq_zero
        omega
      subst hD
      simp only [hlt, if_true]
      obtain ⟨H1, D1, e, s1, b1, l1, p1⟩ := ih (heapPush (o.2, o.1) H) []
        (heapPush_sorted _ _ hs) (by simp) (by simp [heapPush_length]; omega)
      refine ⟨H1, D1, e, s1, b1, l1, p1.trans ?_⟩
      simp only [List.append_nil, List.map_cons, toPair]
      exact ((heapPush_perm _ _).append_right _).trans List.perm_middle.symm
    · simp only [hlt, if_false]
      cases H with
      | nil => simp at hlt; omega
      | cons m rest =>
        rw [List.pairwise_cons] at hs
        have hm : ∀ h ∈ rest, m.1 ≤ h.1 := fun h hh => pairLe_fst _ _ (hs.1 h hh)
        simp only [List.length_cons] at hl hlt
        by_cases hgt : o.2 > m.1
        · simp only [hgt, if_true]
          obtain ⟨H1, D1, e, s1, b1, l1, p1⟩ := ih (heapPush (o.2, o.1) rest) (m :: D)
            (heapPush_sorted _ _ hs.2)
            (by
              intro d hd h hh
              rcases List.mem_cons.1 ((heapPush_perm _ _).subset hh) with rfl | hh
              · rcases List.mem_cons.1 hd with rfl | hd
                · exact Nat.le_of_lt hgt
                · exact Nat.le_trans (hb d hd m (List.mem_cons_self _ _)) (Nat.le_of_lt hgt)
              · rcases List.mem_cons.1 hd with rfl | hd
                · exact hm h hh
                · exact hb d hd h (List.mem_cons_of_mem _ hh))
            (by simp [heapPush_length]; omega)
          refine ⟨H1, D1, e, s1, b1, l1, p1.trans ?_⟩
          simp only [List.map_cons, toPair]
          have q1 : (heapPush (o.2, o.1) rest ++ m :: D).Perm ((o.2, o.1) :: m :: (rest ++ D)) :=
            ((heapPush_perm _ _).append_right _).trans
              ((List.Perm.cons _ List.perm_middle).trans (List.Perm.refl _))
          have q2 : (m :: rest ++ D ++ (o.2, o.1) :: List.map toPair os).Perm
              ((o.2, o.1) :: (m :: (rest ++ D) ++ List.map toPair os)) := by
            simpa using (List.perm_middle :
              (m :: (rest ++ D) ++ (o.2, o.1) :: List.map toPair os).Perm _)
          refine (List.Perm.append_right _ q1).trans ?_
          simpa using q2.symm
        · simp only [hgt, if_false]
          obtain ⟨H1, D1, e, s1, b1, l1, p1⟩ := ih (m :: rest) ((o.2, o.1) :: D)
            (List.Pairwise.cons hs.1 hs.2)
            (by
              intro d hd h hh
              rcases List.mem_cons.1 hd with rfl | hd
              · rcases List.mem_cons.1 hh with rfl | hh
                · exact Nat.le_of_not_lt hgt
                · exact Nat.le_trans (Nat.le_of_not_lt hgt) (hm h hh)
              · exact hb d hd h hh)
            (by simp; omega)
          refine ⟨H1, D1, e, s1, b1, l1, p1.trans ?_⟩
          simp only [List.map_cons, toPair]
          have q : (m :: rest ++ (o.2, o.1) :: D).Perm ((o.2, o.1) :: (m :: rest ++ D)) :=
            List.perm_middle
          refine (List.Perm.append_right _ q).trans ?_
          simpa using (List.perm_middle :
            (m :: (rest ++ D) ++ (o.2, o.1) :: List.map toPair os).Perm _).symm

/-- What the selection returns for a capacity `N` in `1 .. INT_MAX`: a list `out` of
`min N M` pairs in descending order which, together with the discarded pairs `D` that
it dominates, is a rearrangement of the observations. -/
theorem selectTopFiles_spec (fsizes : List (String × Nat)) (N : Int) (h1 : 1 ≤ N)
    (h2 : N ≤ 2147483647) :
    ∃ out D : List FileSizePair,
      selectTopFiles fsizes N = some out ∧
      out.length = min N.toNat fsizes.length ∧
      out.Pairwise (fun a b => pairLe b a = true) ∧
      (∀ d ∈ D, ∀ h ∈ out, d.1 ≤ h.1) ∧
      (out ++ D).Perm (fsizes.map toPair) := by
  obtain ⟨H, D, e, s, b, l, p⟩ := selectLoop_invariant N h1 h2 fsizes [] []
    List.Pairwise.nil (by simp) (by simp)
  refine ⟨H.reverse, D, ?_, ?_, ?_, ?_, ?_⟩
  · simp [selectTopFiles, e, drain_eq]
  · have hp := p.length_eq
    simp only [List.length_append, List.length_map, List.nil_append, List.length_nil] at hp
    rw [List.length_reverse]
    omega
  · exact List.pairwise_reverse.2 s
  · intro d hd h hh
    exact b d hd h (List.mem_reverse.1 hh)
  · simpa using (List.Perm.append_right D (List.reverse_perm H)).trans p

theorem map_fst_toPair (fsizes : List (String × Nat)) :
    (fsizes.map toPair).map Prod.fst = fsizes.map Prod.snd := by
  simp [List.map_map, Function.comp_def, toPair]

/-- A descending list that dominates the rest of a rearrangement of `l` is an initial
segment of the descending sort of `l`. -/
theorem take_sorted_of_dominates (l top rest : List Nat)
    (hs : top.Pairwise (fun a b => a ≥ b)) (hb : ∀ d ∈ rest, ∀ h ∈ top, d ≤ h)
    (hp : (top ++ rest).Perm l) :
    (l.insertionSort (fun a b => a ≥ b)).take top.length = top := by
  have hc : (top ++ rest.insertionSort (fun a b => a ≥ b)).Sorted (fun a b => a ≥ b) := by
    refine List.pairwise_append.2 ⟨hs, List.sorted_insertionSort _ rest, ?_⟩
    intro a ha d hd
    exact hb d ((List.perm_insertionSort _ rest).subset hd) a ha
  have hperm : (top ++ rest.insertionSort (fun a b => a ≥ b)).Perm
      (l.insertionSort (fun a b => a ≥ b)) :=
    ((List.Perm.append_left top (List.perm_insertionSort _ rest)).trans hp).trans
      (List.perm_insertionSort _ l).symm
  have heq := List.eq_of_perm_of_sorted hperm hc (List.sorted_insertionSort _ l)
  rw [← heq, List.take_left]

/-- The sizes returned by the selection, for a capacity `N` in `1 .. INT_MAX`. -/
theorem selectTopFiles_sizes (fsizes : List (String × Nat)) (N : Int) (h1 : 1 ≤ N)
    (h2 : N ≤ 2147483647) :
    ∃ out : List FileSizePair,
      selectTopFiles fsizes N = some out ∧
      (∀ x ∈ out, x ∈ fsizes.map toPair) ∧
      out.map Prod.fst = (sizesDescending fsizes).take (min N.toNat fsizes.length) := by
  obtain ⟨out, D, e, l, s, b, p⟩ := selectTopFiles_spec fsizes N h1 h2
  refine ⟨out, e, fun x hx => p.subset (List.mem_append_left _ hx), ?_⟩
  have hs : (out.map Prod.fst).Pairwise (fun a b => a ≥ b) := by
    rw [List.pairwise_map]
    exact s.imp (fun {a b} h => pairLe_fst b a h)
  have hb : ∀ d ∈ D.map Prod.fst, ∀ h ∈ out.map Prod.fst, d ≤ h := by
    intro d hd h hh
    obtain ⟨d1, hd1, rfl⟩ := List.mem_map.1 hd
    obtain ⟨h1, hh1, rfl⟩ := List.mem_map.1 hh
    exact b d1 hd1 h1 hh1
  have hp : (out.map Prod.fst ++ D.map Prod.fst).Perm (fsizes.map Prod.snd) := by
    rw [← List.map_append, ← map_fst_toPair]
    exact p.map _
  have := take_sorted_of_dominates _ _ _ hs hb hp
  rw [List.length_map, l] at this
  exact this.symm

theorem sizesDescending_perm (fsizes fsizes1 : List (String × Nat))
    (hp : fsizes.Perm fsizes1) : sizesDescending fsizes = sizesDescending fsizes1 := by
  unfold sizesDescending
  apply List.eq_of_perm_of_sorted _ (List.sorted_insertionSort _ _)
    (List.sorted_insertionSort _ _)
  exact ((List.perm_insertionSort _ _).trans (hp.map _)).trans
    (List.perm_insertionSort _ _).symm

theorem eq_of_map_eq_of_injOn {α β : Type} (f : α → β) :
    ∀ l1 l2 : List α, (∀ x ∈ l1, ∀ y ∈ l2, f x = f y → x = y) →
      l1.map f = l2.map f → l1 = l2
  | [], [], _, _ => rfl
  | [], _ :: _, _, h => by simp at h
  | _ :: _, [], _, h => by simp at h
  | a :: l1, b :: l2, hinj, h => by
    simp only [List.map_cons, List.cons.injEq] at h
    have hab : a = b := hinj a (List.mem_cons_self _ _) b (List.mem_cons_self _ _) h.1
    have ht : l1 = l2 := eq_of_map_eq_of_injOn f l1 l2
      (fun x hx y hy => hinj x (List.mem_cons_of_mem _ hx) y (List.mem_cons_of_mem _ hy)) h.2
    rw [hab, ht]

/-! ### Claims C1, C2, C3 -/

/-- C1: for every list of M observations and every capacity N >= 1 (an `int`), the
top-N selection of `main` returns a sequence whose sizes are exactly the first
min(N, M) elements of the observation sizes sorted in descending order. -/
theorem C1_selection_sizes_are_largest (fsizes : List (String × Nat)) (N : Int)
    (h1 : 1 ≤ N) (h2 : N ≤ 2147483647) :
    ∃ out : List FileSizePair,
      selectTopFiles fsizes N = some out ∧
      out.map Prod.fst = (sizesDescending fsizes).take (min N.toNat fsizes.length) := by
  obtain ⟨out, e, _, hs⟩ := selectTopFiles_sizes fsizes N h1 h2
  exact ⟨out, e, hs⟩

/-- C1 at the scenario of the specification: sizes [5, 3000, 2000000, 10] with N = 2
give [2000000, 3000] in that order. -/
theorem C1_selection_sizes_are_largest_witness :
    (1 : Int) ≤ 2 ∧ (2 : Int) ≤ 2147483647 ∧
    selectTopFiles [("a", 5), ("b", 3000), ("c", 2000000), ("d", 10)] 2
      = some [(2000000, "c"), (3000, "b")] ∧
    (sizesDescending [("a", 5), ("b", 3000), ("c", 2000000), ("d", 10)]).take
      (min (2 : Int).toNat 4) = [2000000, 3000] ∧
    ∃ out : List FileSizePair,
      selectTopFiles [("a", 5), ("b", 3000), ("c", 2000000), ("d", 10)] 2 = some out ∧
      out.map Prod.fst
        = (sizesDescending [("a", 5), ("b", 3000), ("c", 2000000), ("d", 10)]).take
            (min (2 : Int).toNat
              [("a", 5), ("b", 3000), ("c", 2000000), ("d", 10)].length) :=
  ⟨by decide, by decide, by decide, by decide,
    C1_selection_sizes_are_largest [("a", 5), ("b", 3000), ("c", 2000000), ("d", 10)] 2
      (by decide) (by decide)⟩

/-- C2 fails as stated: with two files of equal size and N = 2 the returned sizes
[5, 5] are not strictly descending; with N = 0 and one observation the selection reads
`top()` of an empty queue and returns nothing; with N = -1 and two observations it
returns both, which is not min(N, M) elements. -/
theorem C2_counterexample :
    (selectTopFiles [("a", 5), ("b", 5)] 2 = some [(5, "b"), (5, "a")] ∧
      ¬ (List.map Prod.fst [((5 : Nat), "b"), (5, "a")]).Pairwise (fun a b => a > b)) ∧
    selectTopFiles [("a", 5)] 0 = none ∧
    (selectTopFiles [("a", 5), ("b", 7)] (-1) = some [(7, "b"), (5, "a")] ∧
      ((List.length [((7 : Nat), "b"), (5, "a")] : Nat) : Int) ≠ min (-1) 2) := by
  refine ⟨⟨by decide, by decide⟩, by decide, by decide, by decide⟩

/-- C2 as amended: for every observation list of length M and every N >= 1 (an `int`),
the selection returns min(N, M) pairs whose sizes are in descending order, equal sizes
being allowed next to each other; when M <= N the pairs returned are all the
observations, with no padding. -/
theorem C2_selection_length_and_order (fsizes : List (String × Nat)) (N : Int)
    (h1 : 1 ≤ N) (h2 : N ≤ 2147483647) :
    ∃ out : List FileSizePair,
      selectTopFiles fsizes N = some out ∧
      out.length = min N.toNat fsizes.length ∧
      (out.map Prod.fst).Pairwise (fun a b => a ≥ b) ∧
      ((fsizes.length : Int) ≤ N → out.Perm (fsizes.map toPair)) := by
  obtain ⟨out, D, e, l, s, _, p⟩ := selectTopFiles_spec fsizes N h1 h2
  refine ⟨out, e, l, ?_, ?_⟩
  · rw [List.pairwise_map]
    exact s.imp (fun {a b} h => pairLe_fst b a h)
  · intro hle
    have hlen := p.length_eq
    simp only [List.length_append, List.length_map] at hlen
    have hD : D = [] := by
      apply List.eq_nil_of_length_eq_zero
      omega
    subst hD
    simpa using p

/-- C2 as amended, at three files of sizes 5, 5, 7 and N = 2, and at N = 5. -/
theorem C2_selection_length_and_order_witness :
    selectTopFiles [("a", 5), ("b", 5), ("c", 7)] 2 = some [(7, "c"), (5, "b")] ∧
    selectTopFiles [("a", 5), ("b", 5), ("c", 7)] 5 = some [(7, "c"), (5, "b"), (5, "a")] ∧
    (∃ out : List FileSizePair,
      selectTopFiles [("a", 5), ("b", 5), ("c", 7)] 2 = some out ∧
      out.length = min (2 : Int).toNat [("a", 5), ("b", 5), ("c", 7)].length ∧
      (out.map Prod.fst).Pairwise (fun a b => a ≥ b) ∧
      ((([("a", 5), ("b", 5), ("c", 7)] : List (String × Nat)).length : Int) ≤ 2 →
        out.Perm (List.map toPair [("a", 5), ("b", 5), ("c", 7)]))) :=
  ⟨by decide, by decide,
    C2_selection_length_and_order [("a", 5), ("b", 5), ("c", 7)] 2 (by decide) (by decide)⟩

/-- C3 fails as stated: two observations of equal size 5 and N = 1 give the pair
(5, "a") when "a" is fed first and the pair (5, "b") when "b" is fed first. -/
theorem C3_counterexample :
    List.Perm [("a", 5), ("b", 5)] [("b", 5), ("a", 5)] ∧
    selectTopFiles [("a", 5), ("b", 5)] 1 = some [(5, "a")] ∧
    selectTopFiles [("b", 5), ("a", 5)] 1 = some [(5, "b")] ∧
    ¬ List.Perm [((5 : Nat), "a")] [(5, "b")] := by
  refine ⟨List.Perm.swap _ _ _, by decide, by decide, ?_⟩
  intro h
  have := h.subset (List.mem_singleton_self _)
  simp at this

/-- C3 as amended: for every observation list, every N >= 1 (an `int`) and every
permutation of the observations, the selection returns the same sequence of sizes, and
it returns the same (size, path) pairs when the sizes of the observations are pairwise
distinct. -/
theorem C3_selection_permutation (fsizes fsizes1 : List (String × Nat)) (N : Int)
    (h1 : 1 ≤ N) (h2 : N ≤ 2147483647) (hp : fsizes.Perm fsizes1) :
    ∃ out out1 : List FileSizePair,
      selectTopFiles fsizes N = some out ∧
      selectTopFiles fsizes1 N = some out1 ∧
      out.map Prod.fst = out1.map Prod.fst ∧
      ((fsizes.map Prod.snd).Nodup → out = out1) := by
  obtain ⟨out, e, m, hs⟩ := selectTopFiles_sizes fsizes N h1 h2
  obtain ⟨out1, e1, m1, hs1⟩ := selectTopFiles_sizes fsizes1 N h1 h2
  have heq : out.map Prod.fst = out1.map Prod.fst := by
    rw [hs, hs1, sizesDescending_perm _ _ hp, hp.length_eq]
  refine ⟨out, out1, e, e1, heq, ?_⟩
  intro hnd
  rw [← map_fst_toPair] at hnd
  apply eq_of_map_eq_of_injOn Prod.fst out out1 _ heq
  intro x hx y hy hxy
  exact List.inj_on_of_nodup_map hnd (m x hx) ((hp.map toPair).symm.subset (m1 y hy)) hxy

/-- C3 as amended, at three files of distinct sizes fed in two orders with N = 2. -/
theorem C3_selection_permutation_witness :
    selectTopFiles [("a", 5), ("b", 9), ("c", 7)] 2 = some [(9, "b"), (7, "c")] ∧
    selectTopFiles [("c", 7), ("a", 5), ("b", 9)] 2 = some [(9, "b"), (7, "c")] ∧
    (List.map Prod.snd [("a", 5), ("b", 9), ("c", 7)]).Nodup ∧
    ∃ out out1 : List FileSizePair,
      selectTopFiles [("a", 5), ("b", 9), ("c", 7)] 2 = some out ∧
      selectTopFiles [("c", 7), ("a", 5), ("b", 9)] 2 = some out1 ∧
      out.map Prod.fst = out1.map Prod.fst ∧
      ((List.map Prod.snd [("a", 5), ("b", 9), ("c", 7)]).Nodup → out = out1) :=
  ⟨by decide, by decide, by decide,
    C3_selection_permutation [("a", 5), ("b", 9), ("c", 7)] [("c", 7), ("a", 5), ("b", 9)] 2
      (by decide) (by decide)
      (by decide)⟩

/-! ## Properties of `process_directory` of multi.cpp -/

theorem Accumulator.merge_empty (a : Accumulator) : a.merge Accumulator.empty = a := by
  cases a; simp [Accumulator.merge, Accumulator.empty]

theorem Accumulator.empty_merge (a : Accumulator) : Accumulator.empty.merge a = a := by
  cases a; simp [Accumulator.merge, Accumulator.empty]

theorem Accumulator.merge_assoc (a b c : Accumulator) :
    (a.merge b).merge c = a.merge (b.merge c) := by
  simp [Accumulator.merge, List.append_assoc, Nat.add_assoc]

namespace Multi

/-- With a depth other than 0 the entry loop runs to its end: it records the immediate
files and pushes the immediate subdirectories. -/
theorem entryLoop_of_ne (root_dir : String) (depth : Int) (hd : depth ≠ 0) (l : Listing) :
    ∀ (subdirs : List String) (acc : Accumulator),
      entryLoop root_dir depth l subdirs acc
        = .finished (subdirs ++ (subdirsOf root_dir l).map DirEntry.path)
            (acc.merge ⟨filesOf root_dir l, errorsOf root_dir l,
              (filesOf root_dir l).length, 0⟩) := by
  induction l with
  | nil =>
    intro subdirs acc
    simp [entryLoop, subdirsOf, filesOf, errorsOf, Accumulator.merge]
  | file name size rest ih =>
    intro subdirs acc
    simp only [entryLoop, hd, if_false, subdirsOf, filesOf, errorsOf]
    by_cases hn : startsWithDollar name = true
    · simp only [hn, if_true]
      exact ih subdirs acc
    · simp only [hn, if_false]
      cases size with
      | none =>
        simp only [ih]
        simp [Accumulator.merge]
      | some sz =>
        simp only [ih]
        simp [Accumulator.merge]
        omega
  | dir name isdir sub rest _ ih =>
    intro subdirs acc
    simp only [entryLoop, hd, if_false, subdirsOf, filesOf, errorsOf]
    by_cases hn : startsWithDollar name = true
    · simp only [hn, if_true]
      exact ih subdirs acc
    · simp only [hn, if_false]
      simp only [ih]
      simp

/-- The body of `process_directory` in closed form. -/
theorem processWith_eq (children : Accumulator → Accumulator) (root_dir : String)
    (depth : Int) (isdir : Bool) (l : Listing) (acc : Accumulator) :
    processWith children root_dir depth isdir l acc
      = if isdir = false then acc
        else if depth = 0 ∧ l ≠ .nil then acc.merge ⟨[], [], 0, 1⟩
        else children (acc.merge (immediate root_dir l)) := by
  unfold processWith
  cases isdir with
  | false => simp
  | true =>
    simp only [Bool.not_true, Bool.false_eq_true, if_false]
    by_cases hd : depth = 0
    · subst hd
      cases l with
      | nil => simp [entryLoop, immediate, filesOf, errorsOf, Accumulator.merge]
      | file name size rest => simp [entryLoop, Accumulator.merge]
      | dir name isdir sub rest => simp [entryLoop, Accumulator.merge]
    · rw [entryLoop_of_ne root_dir depth hd]
      simp [hd, immediate, Accumulator.merge, Nat.add_assoc]

theorem processWith_merge (children : Accumulator → Accumulator)
    (h : ∀ a, children a = a.merge (children Accumulator.empty))
    (root_dir : String) (depth : Int) (isdir : Bool) (l : Listing) (acc : Accumulator) :
    processWith children root_dir depth isdir l acc
      = acc.merge (processWith children root_dir depth isdir l Accumulator.empty) := by
  rw [processWith_eq, processWith_eq]
  by_cases h1 : isdir = false
  · rw [if_pos h1, if_pos h1, Accumulator.merge_empty]
  · rw [if_neg h1, if_neg h1]
    by_cases h2 : depth = 0 ∧ l ≠ .nil
    · rw [if_pos h2, if_pos h2, Accumulator.empty_merge]
    · rw [if_neg h2, if_neg h2, h, h (Accumulator.empty.merge _), Accumulator.empty_merge,
        Accumulator.merge_assoc]

/-- The children add their results to whatever has been collected before. -/
theorem spawnAll_merge (l : Listing) :
    ∀ (root_dir : String) (depth : Int) (acc : Accumulator),
      spawnAll root_dir depth l acc
        = acc.merge (spawnAll root_dir depth l Accumulator.empty) := by
  induction l with
  | nil => intro _ _ acc; simp [spawnAll, Accumulator.merge_empty]
  | file name size rest ih => intro root_dir depth acc; simpa [spawnAll] using ih root_dir depth acc
  | dir name isdir sub rest ihs ihr =>
    intro root_dir depth acc
    simp only [spawnAll]
    by_cases hn : startsWithDollar name = true
    · rw [if_pos hn, if_pos hn]
      exact ihr root_dir depth acc
    · rw [if_neg hn, if_neg hn, ihr, processWith_merge _ (ihs _ _), Accumulator.merge_assoc,
        ← ihr]

theorem process_directory_merge (root_dir : String) (depth : Int) (isdir : Bool)
    (l : Listing) (acc : Accumulator) :
    process_directory root_dir depth isdir l acc
      = acc.merge (scan root_dir depth isdir l) :=
  processWith_merge _ (spawnAll_merge l root_dir depth) root_dir depth isdir l acc

/-- The fan-out loop runs `process_directory` on the immediate subdirectories. -/
theorem spawnAll_eq_foldl (root_dir : String) (depth : Int) (l : Listing) :
    ∀ acc : Accumulator,
      spawnAll root_dir depth l acc
        = (subdirsOf root_dir l).foldl
            (fun a e => a.merge (scanDir (wrapInt32 (depth - 1)) e)) acc := by
  induction l with
  | nil => intro acc; rfl
  | file name size rest ih => intro acc; simpa [spawnAll, subdirsOf] using ih acc
  | dir name isdir sub rest _ ihr =>
    intro acc
    simp only [spawnAll, subdirsOf]
    by_cases hn : startsWithDollar name = true
    · rw [if_pos hn, if_pos hn]
      exact ihr acc
    · rw [if_neg hn, if_neg hn, List.foldl_cons, ihr]
      congr 1
      exact process_directory_merge _ _ _ _ _

end Multi

theorem foldl_merge (g : DirEntry → Accumulator) (cs : List DirEntry) :
    ∀ a : Accumulator,
      cs.foldl (fun a e => a.merge (g e)) a
        = a.merge ⟨cs.flatMap (fun e => (g e).fsizes),
            cs.flatMap (fun e => (g e).error_files),
            (cs.map (fun e => (g e).file_count)).sum,
            (cs.map (fun e => (g e).dir_count)).sum⟩ := by
  induction cs with
  | nil => intro a; exact (Accumulator.merge_empty a).symm
  | cons c cs ih =>
    intro a
    rw [List.foldl_cons, ih, Accumulator.merge_assoc]
    simp [Accumulator.merge]

theorem dirsAtLevel_zero_of_not_dir (e : DirEntry) (h : e.isdir = false) (k : Nat) :
    dirsAtLevel k e = [] := by
  cases k <;> simp [dirsAtLevel, children, h]

namespace Multi

theorem scanDir_eq (depth : Int) (e : DirEntry) :
    scanDir depth e
      = processWith (spawnAll e.path depth e.listing) e.path depth e.isdir e.listing
          Accumulator.empty := rfl

theorem scanDir_zero (e : DirEntry) :
    scanDir 0 e = ⟨[], [], 0, (dirsAtLevel 0 e).length⟩ := by
  rw [scanDir_eq, processWith_eq]
  by_cases h1 : e.isdir = false
  · simp [h1, dirsAtLevel, Accumulator.empty]
  · rw [if_neg h1]
    have h1t : e.isdir = true := by simpa using h1
    by_cases h2 : e.listing = .nil
    · simp [h2, spawnAll, immediate, filesOf, errorsOf, Accumulator.merge,
        Accumulator.empty, dirsAtLevel, h1t]
    · simp [h2, Accumulator.merge, Accumulator.empty, dirsAtLevel, h1t]

/-- The recursion of the scan: with a depth other than 0, a directory contributes what
its own listing holds, followed by the scans of its children with depth - 1. -/
theorem scanDir_of_ne (depth : Int) (hd : depth ≠ 0) (e : DirEntry) :
    scanDir depth e
      = ⟨filesAtLevel 0 e
            ++ (children e).flatMap (fun c => (scanDir (wrapInt32 (depth - 1)) c).fsizes),
          errorsAtLevel 0 e
            ++ (children e).flatMap
                (fun c => (scanDir (wrapInt32 (depth - 1)) c).error_files),
          (filesAtLevel 0 e).length
            + ((children e).map
                (fun c => (scanDir (wrapInt32 (depth - 1)) c).file_count)).sum,
          (dirsAtLevel 0 e).length
            + ((children e).map
                (fun c => (scanDir (wrapInt32 (depth - 1)) c).dir_count)).sum⟩ := by
  rw [scanDir_eq depth e, processWith_eq]
  by_cases h1 : e.isdir = false
  · simp [h1, dirsAtLevel, filesAtLevel, errorsAtLevel, children, Accumulator.empty]
  · rw [if_neg h1]
    have h1t : e.isdir = true := by simpa using h1
    have h2 : ¬ (depth = 0 ∧ e.listing ≠ .nil) := fun h => hd h.1
    rw [if_neg h2, spawnAll_eq_foldl, foldl_merge, Accumulator.empty_merge]
    simp [immediate, Accumulator.merge, dirsAtLevel, filesAtLevel, errorsAtLevel, children,
      h1t]

end Multi

/-! ### The scan level by level -/

theorem flatMap_comm_perm {α β γ : Type} (l1 : List α) (l2 : List β)
    (f : α → β → List γ) :
    (l1.flatMap (fun a => l2.flatMap (fun b => f a b))).Perm
      (l2.flatMap (fun b => l1.flatMap (fun a => f a b))) := by
  induction l1 with
  | nil => simp
  | cons a l1 ih =>
    simp only [List.flatMap_cons]
    exact (List.Perm.append_left _ ih).trans (List.flatMap_append_perm l2 _ _)

/-- A collection made level by level, over the levels `0 .. n`, is the collection at
level 0 followed by the collections of the children over the levels `0 .. n - 1`. -/
theorem levels_succ_perm {α : Type} (lev : Nat → DirEntry → List α)
    (h : ∀ k e, lev (k + 1) e = (children e).flatMap (lev k)) (n : Nat) (e : DirEntry) :
    ((List.range (n + 1)).flatMap (fun k => lev k e)).Perm
      (lev 0 e ++ (children e).flatMap
        (fun c => (List.range n).flatMap (fun k => lev k c))) := by
  rw [List.range_succ_eq_map, List.flatMap_cons, List.flatMap_map]
  refine List.Perm.append_left _ ?_
  simp only [Function.comp_def, Nat.succ_eq_add_one, h]
  exact flatMap_comm_perm _ _ _

theorem filesAtLevel_succ (k : Nat) (e : DirEntry) :
    filesAtLevel (k + 1) e = (children e).flatMap (filesAtLevel k) := by
  unfold filesAtLevel
  rw [dirsAtLevel, List.flatMap_assoc]

theorem errorsAtLevel_succ (k : Nat) (e : DirEntry) :
    errorsAtLevel (k + 1) e = (children e).flatMap (errorsAtLevel k) := by
  unfold errorsAtLevel
  rw [dirsAtLevel, List.flatMap_assoc]

theorem filesAtLevel_succ_fun (k : Nat) :
    filesAtLevel (k + 1) = fun e => (children e).flatMap (filesAtLevel k) :=
  funext (filesAtLevel_succ k)

theorem errorsAtLevel_succ_fun (k : Nat) :
    errorsAtLevel (k + 1) = fun e => (children e).flatMap (errorsAtLevel k) :=
  funext (errorsAtLevel_succ k)

theorem countedDirs_succ_perm (n : Nat) (e : DirEntry) :
    (countedDirs (n + 1) e).Perm
      (dirsAtLevel 0 e ++ (children e).flatMap (countedDirs n)) :=
  levels_succ_perm dirsAtLevel (fun _ _ => rfl) (n + 1) e

theorem wrapInt32_pred (n : Nat) (hn : ((n : Int) + 1) ≤ 2147483647) :
    wrapInt32 (((n : Int) + 1) - 1) = (n : Int) := by
  unfold wrapInt32
  omega

namespace Multi

/-- The scan with a depth `n >= 0`: the observations and the errors are those of the
reached directories at the levels below `n`, and `dir_count` is the number of reached
accessible directories at the levels `0 .. n`. -/
theorem scanDir_levels (n : Nat) :
    (n : Int) ≤ 2147483647 → ∀ e : DirEntry,
      (scanDir n e).fsizes.Perm ((List.range n).flatMap (fun k => filesAtLevel k e)) ∧
      (scanDir n e).error_files.Perm
        ((List.range n).flatMap (fun k => errorsAtLevel k e)) ∧
      (scanDir n e).dir_count = (countedDirs n e).length := by
  induction n with
  | zero =>
    intro _ e
    simp only [Nat.cast_zero, scanDir_zero, List.range_zero, List.flatMap_nil]
    refine ⟨List.Perm.refl _, List.Perm.refl _, ?_⟩
    simp [countedDirs, List.range_succ]
  | succ n ih =>
    intro hn e
    have hn1 : ((n : Int) + 1) ≤ 2147483647 := by exact_mod_cast hn
    have ihn := ih (by omega)
    have hne : ((n : Int) + 1) ≠ 0 := by omega
    rw [Nat.cast_succ, scanDir_of_ne _ hne, wrapInt32_pred n hn1]
    refine ⟨?_, ?_, ?_⟩
    · refine (List.Perm.append_left _
        (List.Perm.flatMap_left _ (fun c _ => (ihn c).1))).trans ?_
      exact (levels_succ_perm filesAtLevel filesAtLevel_succ n e).symm
    · refine (List.Perm.append_left _
        (List.Perm.flatMap_left _ (fun c _ => (ihn c).2.1))).trans ?_
      exact (levels_succ_perm errorsAtLevel errorsAtLevel_succ n e).symm
    · rw [(countedDirs_succ_perm n e).length_eq, List.length_append, List.length_flatMap]
      show _ + _ = _ + _
      congr 2
      exact List.map_congr_left (fun c _ => (ihn c).2.2)

end Multi

/-! ### Induction over the tree, for every depth -/

theorem subdirsOf_mem (root_dir : String) (l : Listing) (c : DirEntry)
    (hc : c ∈ subdirsOf root_dir l) :
    ∃ name, startsWithDollar name = false ∧ c.path = joinPath root_dir name ∧
      c.listing.size < l.size := by
  induction l with
  | nil => simp [subdirsOf] at hc
  | file name size rest ih =>
    obtain ⟨n, h1, h2, h3⟩ := ih (by simpa [subdirsOf] using hc)
    exact ⟨n, h1, h2, by simp only [Listing.size]; omega⟩
  | dir name isdir sub rest _ ih =>
    simp only [subdirsOf] at hc
    by_cases hn : startsWithDollar name = true
    · rw [if_pos hn] at hc
      obtain ⟨n, h1, h2, h3⟩ := ih hc
      exact ⟨n, h1, h2, by simp only [Listing.size]; omega⟩
    · rw [if_neg hn] at hc
      rcases List.mem_cons.1 hc with rfl | hc
      · exact ⟨name, by simpa using hn, rfl, by simp only [Listing.size]; omega⟩
      · obtain ⟨n, h1, h2, h3⟩ := ih hc
        exact ⟨n, h1, h2, by simp only [Listing.size]; omega⟩

theorem children_mem (e c : DirEntry) (hc : c ∈ children e) :
    ∃ name, startsWithDollar name = false ∧ c.path = joinPath e.path name ∧
      c.listing.size < e.listing.size := by
  unfold children at hc
  by_cases h : e.isdir = true
  · rw [if_pos h] at hc
    exact subdirsOf_mem _ _ _ hc
  · rw [if_neg h] at hc
    simp at hc

/-- Induction along the recursion of the scan, for any depth: a property that holds at
depth 0, and at a depth other than 0 as soon as it holds for the children at the
decremented depth, holds for every depth and directory. -/
theorem scan_induction (P : Int → DirEntry → Prop) (h0 : ∀ e, P 0 e)
    (hs : ∀ d e, d ≠ 0 → (∀ c ∈ children e, P (wrapInt32 (d - 1)) c) → P d e) :
    ∀ d e, P d e := by
  have key : ∀ n : Nat, ∀ d e, e.listing.size < n → P d e := by
    intro n
    induction n with
    | zero => intro d e h; omega
    | succ n ih =>
      intro d e h
      by_cases hd : d = 0
      · subst hd; exact h0 e
      · refine hs d e hd (fun c hc => ih _ c ?_)
        obtain ⟨_, _, _, hlt⟩ := children_mem e c hc
        omega
  intro d e
  exact key (e.listing.size + 1) d e (Nat.lt_succ_self _)

theorem filesOf_mem (root_dir : String) (l : Listing) (o : String × Nat)
    (ho : o ∈ filesOf root_dir l) :
    ∃ name, startsWithDollar name = false ∧ o.1 = joinPath root_dir name := by
  induction l with
  | nil => simp [filesOf] at ho
  | file name size rest ih =>
    simp only [filesOf] at ho
    by_cases hn : startsWithDollar name = true
    · rw [if_pos hn] at ho; exact ih ho
    · rw [if_neg hn] at ho
      cases size with
      | none => exact ih ho
      | some sz =>
        rcases List.mem_cons.1 ho with rfl | ho
        · exact ⟨name, by simpa using hn, rfl⟩
        · exact ih ho
  | dir name isdir sub rest _ ih => exact ih (by simpa [filesOf] using ho)

theorem filesAtLevel_zero_mem (e : DirEntry) (o : String × Nat)
    (ho : o ∈ filesAtLevel 0 e) :
    ∃ name, startsWithDollar name = false ∧ o.1 = joinPath e.path name := by
  unfold filesAtLevel dirsAtLevel at ho
  by_cases h : e.isdir = true
  · rw [if_pos h] at ho
    exact filesOf_mem _ _ _ (by simpa using ho)
  · rw [if_neg h] at ho
    simp at ho

namespace Multi

/-- The counter `file_count` is the number of recorded observations, for any depth. -/
theorem scanDir_file_count (d : Int) (e : DirEntry) :
    (scanDir d e).file_count = (scanDir d e).fsizes.length := by
  revert d e
  apply scan_induction
  · intro e; rw [scanDir_zero]; rfl
  · intro d e hd ih
    rw [scanDir_of_ne d hd]
    show _ + _ = List.length (_ ++ _)
    rw [List.length_append, List.length_flatMap]
    congr 2
    exact List.map_congr_left ih

/-- Every observed path is reached from the scanned directory through names of which
none starts with `$`, for any depth. -/
theorem scanDir_paths (d : Int) (e : DirEntry) :
    ∀ o ∈ (scanDir d e).fsizes, ∃ names : List String,
      names ≠ [] ∧ (∀ n ∈ names, startsWithDollar n = false) ∧
      o.1 = pathFrom e.path names := by
  revert d e
  apply scan_induction
  · intro e o ho; rw [scanDir_zero] at ho; simp at ho
  · intro d e hd ih o ho
    rw [scanDir_of_ne d hd] at ho
    rcases List.mem_append.1 ho with ho | ho
    · obtain ⟨name, h1, h2⟩ := filesAtLevel_zero_mem e o ho
      exact ⟨[name], by simp, by simpa using h1, by simpa [pathFrom] using h2⟩
    · obtain ⟨c, hc, hoc⟩ := List.mem_flatMap.1 ho
      obtain ⟨names, h1, h2, h3⟩ := ih c hc o hoc
      obtain ⟨name, g1, g2, _⟩ := children_mem e c hc
      refine ⟨name :: names, by simp, ?_, ?_⟩
      · intro n hn
        rcases List.mem_cons.1 hn with rfl | hn
        · exact g1
        · exact h2 n hn
      · rw [h3, g2]; rfl

end Multi

/-! ### Entries whose name starts with `$` -/

theorem filesOf_stripDollar (root_dir : String) (l : Listing) :
    filesOf root_dir (stripDollar l) = filesOf root_dir l := by
  induction l with
  | nil => rfl
  | file name size rest ih =>
    simp only [stripDollar, filesOf]
    by_cases hn : startsWithDollar name = true
    · rw [if_pos hn, if_pos hn]; exact ih
    · rw [if_neg hn, if_neg hn]
      simp only [filesOf]
      rw [if_neg hn, ih]
  | dir name isdir sub rest _ ih =>
    simp only [stripDollar, filesOf]
    by_cases hn : startsWithDollar name = true
    · rw [if_pos hn]; exact ih
    · rw [if_neg hn]; simpa only [filesOf] using ih

theorem errorsOf_stripDollar (root_dir : String) (l : Listing) :
    errorsOf root_dir (stripDollar l) = errorsOf root_dir l := by
  induction l with
  | nil => rfl
  | file name size rest ih =>
    simp only [stripDollar, errorsOf]
    by_cases hn : startsWithDollar name = true
    · rw [if_pos hn, if_pos hn]; exact ih
    · rw [if_neg hn, if_neg hn]
      simp only [errorsOf]
      rw [if_neg hn, ih]
  | dir name isdir sub rest _ ih =>
    simp only [stripDollar, errorsOf]
    by_cases hn : startsWithDollar name = true
    · rw [if_pos hn]; exact ih
    · rw [if_neg hn]; simpa only [errorsOf] using ih

theorem subdirsOf_stripDollar (root_dir : String) (l : Listing) :
    subdirsOf root_dir (stripDollar l) = (subdirsOf root_dir l).map stripDir := by
  induction l with
  | nil => rfl
  | file name size rest ih =>
    simp only [stripDollar, subdirsOf]
    by_cases hn : startsWithDollar name = true
    · rw [if_pos hn]; exact ih
    · rw [if_neg hn]; simpa only [subdirsOf] using ih
  | dir name isdir sub rest _ ih =>
    simp only [stripDollar, subdirsOf]
    by_cases hn : startsWithDollar name = true
    · rw [if_pos hn, if_pos hn]; exact ih
    · rw [if_neg hn, if_neg hn]
      simp only [subdirsOf]
      rw [if_neg hn, ih]
      rfl

theorem children_stripDir (e : DirEntry) :
    children (stripDir e) = (children e).map stripDir := by
  unfold children
  by_cases h : e.isdir = true
  · simp only [stripDir, h, if_true]
    exact subdirsOf_stripDollar _ _
  · simp [stripDir, h]

theorem flatMap_congr_mem {α β : Type} (l : List α) (f g : α → List β)
    (h : ∀ a ∈ l, f a = g a) : l.flatMap f = l.flatMap g := by
  induction l with
  | nil => rfl
  | cons a l ih =>
    simp only [List.flatMap_cons]
    rw [h a (List.mem_cons_self _ _),
      ih (fun b hb => h b (List.mem_cons_of_mem _ hb))]

namespace Multi

/-- The scan does not depend on the entries whose name starts with `$`, nor on
anything below them, for any depth. -/
theorem scanDir_stripDir (d : Int) (e : DirEntry) :
    scanDir d (stripDir e) = scanDir d e := by
  revert d e
  apply scan_induction
  · intro e
    rw [scanDir_zero, scanDir_zero]
    by_cases h : e.isdir = true <;> simp [dirsAtLevel, stripDir, h]
  · intro d e hd ih
    rw [scanDir_of_ne d hd, scanDir_of_ne d hd, children_stripDir]
    have hf : filesAtLevel 0 (stripDir e) = filesAtLevel 0 e := by
      by_cases h : e.isdir = true <;>
        simp [filesAtLevel, dirsAtLevel, stripDir, h, filesOf_stripDollar]
    have he : errorsAtLevel 0 (stripDir e) = errorsAtLevel 0 e := by
      by_cases h : e.isdir = true <;>
        simp [errorsAtLevel, dirsAtLevel, stripDir, h, errorsOf_stripDollar]
    have hl : (dirsAtLevel 0 (stripDir e)).length = (dirsAtLevel 0 e).length := by
      by_cases h : e.isdir = true <;> simp [dirsAtLevel, stripDir, h]
    rw [hf, he, hl, List.flatMap_map, List.flatMap_map, List.map_map, List.map_map]
    have c1 := flatMap_congr_mem (children e)
      (fun a => (scanDir (wrapInt32 (d - 1)) (stripDir a)).fsizes)
      (fun c => (scanDir (wrapInt32 (d - 1)) c).fsizes)
      (fun c hc => by show (scanDir _ (stripDir c)).fsizes = _; rw [ih c hc])
    have c2 := flatMap_congr_mem (children e)
      (fun a => (scanDir (wrapInt32 (d - 1)) (stripDir a)).error_files)
      (fun c => (scanDir (wrapInt32 (d - 1)) c).error_files)
      (fun c hc => by show (scanDir _ (stripDir c)).error_files = _; rw [ih c hc])
    have c3 : List.map ((fun c => (scanDir (wrapInt32 (d - 1)) c).file_count) ∘ stripDir)
        (children e)
        = List.map (fun c => (scanDir (wrapInt32 (d - 1)) c).file_count) (children e) :=
      List.map_congr_left (fun c hc => by simp only [Function.comp]; rw [ih c hc])
    have c4 : List.map ((fun c => (scanDir (wrapInt32 (d - 1)) c).dir_count) ∘ stripDir)
        (children e)
        = List.map (fun c => (scanDir (wrapInt32 (d - 1)) c).dir_count) (children e) :=
      List.map_congr_left (fun c hc => by simp only [Function.comp]; rw [ih c hc])
    rw [c1, c2, c3, c4]

end Multi

theorem flatMap_dirsAtLevel_zero (cs : List DirEntry) :
    cs.flatMap (dirsAtLevel 0) = cs.filter (fun c => c.isdir) := by
  induction cs with
  | nil => rfl
  | cons c cs ih =>
    rw [List.flatMap_cons, ih]
    by_cases h : c.isdir = true <;> simp [dirsAtLevel, h]

/-! ### Claims C4 to C8 -/

/-- C4: for every directory tree and every depth d >= 1 (an `int`), every observation
recorded by `process_directory(root, d)` of multi.cpp is an immediate file of a
directory at a level k < d (the root is level 0), and with d = 1 the recorded
observations are exactly the immediate readable files of the root whose names do not
start with `$`. -/
theorem C4_depth_bound (root_dir : String) (d : Int) (isdir : Bool) (l : Listing)
    (h1 : 1 ≤ d) (h2 : d ≤ 2147483647) :
    (∀ o ∈ (Multi.scan root_dir d isdir l).fsizes,
      ∃ k : Nat, (k : Int) < d ∧ o ∈ filesAtLevel k ⟨root_dir, isdir, l⟩) ∧
    (d = 1 → (Multi.scan root_dir d isdir l).fsizes
      = if isdir = true then filesOf root_dir l else []) := by
  constructor
  · intro o ho
    obtain ⟨n, rfl⟩ : ∃ n : Nat, d = (n : Int) := ⟨d.toNat, by omega⟩
    have hp := (Multi.scanDir_levels n h2 ⟨root_dir, isdir, l⟩).1
    obtain ⟨k, hk, hok⟩ := List.mem_flatMap.1 (hp.subset ho)
    exact ⟨k, by exact_mod_cast List.mem_range.1 hk, hok⟩
  · intro hd
    subst hd
    have h := Multi.scanDir_of_ne 1 (by decide) ⟨root_dir, isdir, l⟩
    have hw : wrapInt32 (1 - 1) = 0 := by decide
    rw [hw] at h
    show (Multi.scanDir 1 ⟨root_dir, isdir, l⟩).fsizes = _
    rw [h]
    by_cases hi : isdir = true <;>
      simp [Multi.scanDir_zero, filesAtLevel, dirsAtLevel, hi]

/-- C4 at a root with a file, a `$` file and a subdirectory holding a file, for the
depths 2 and 1. -/
theorem C4_depth_bound_witness :
    Multi.scan "C:\\" 2 true
        (.file "a" (some 5) (.file "$b" (some 6) (.dir "s" true (.file "c" (some 7) .nil) .nil)))
      = ⟨[("C:\\a", 5), ("C:\\s\\c", 7)], [], 2, 2⟩ ∧
    Multi.scan "C:\\" 1 true
        (.file "a" (some 5) (.file "$b" (some 6) (.dir "s" true (.file "c" (some 7) .nil) .nil)))
      = ⟨[("C:\\a", 5)], [], 1, 2⟩ ∧
    ((∀ o ∈ (Multi.scan "C:\\" 2 true
        (.file "a" (some 5) (.file "$b" (some 6)
          (.dir "s" true (.file "c" (some 7) .nil) .nil)))).fsizes,
      ∃ k : Nat, (k : Int) < 2 ∧ o ∈ filesAtLevel k ⟨"C:\\", true,
        (.file "a" (some 5) (.file "$b" (some 6)
          (.dir "s" true (.file "c" (some 7) .nil) .nil)))⟩) ∧
    ((2 : Int) = 1 → (Multi.scan "C:\\" 2 true
        (.file "a" (some 5) (.file "$b" (some 6)
          (.dir "s" true (.file "c" (some 7) .nil) .nil)))).fsizes
      = if true = true then filesOf "C:\\"
          (.file "a" (some 5) (.file "$b" (some 6)
            (.dir "s" true (.file "c" (some 7) .nil) .nil))) else [])) :=
  ⟨by decide, by decide,
    C4_depth_bound "C:\\" 2 true
      (.file "a" (some 5) (.file "$b" (some 6) (.dir "s" true (.file "c" (some 7) .nil) .nil)))
      (by decide) (by decide)⟩

/-- C5 fails as stated: `process_directory(ROOT_DIR, 0)` on a root that holds the
readable file `a.txt` records no observation, although `a.txt` is an immediate file of
the root. -/
theorem C5_counterexample :
    Multi.scan ROOT_DIR 0 true (.file "a.txt" (some 5) .nil) = ⟨[], [], 0, 1⟩ ∧
    filesOf ROOT_DIR (.file "a.txt" (some 5) .nil) = [("C:\\a.txt", 5)] := by
  constructor <;> decide

/-- C5 as amended: at depth 0 `process_directory(root, 0)` of multi.cpp records no
observation and no error and runs on no subdirectory; it only counts the root in
`dir_count` when the root passes the accessibility test. -/
theorem C5_depth_zero (root_dir : String) (isdir : Bool) (l : Listing) :
    Multi.scan root_dir 0 isdir l = ⟨[], [], 0, if isdir = true then 1 else 0⟩ := by
  show Multi.scanDir 0 ⟨root_dir, isdir, l⟩ = _
  rw [Multi.scanDir_zero]
  by_cases hi : isdir = true <;> simp [dirsAtLevel, hi]

/-- C6: for every directory tree and every depth (any integer), the result of
`process_directory` of multi.cpp, i.e. the observations, the errors, `file_count` and
`dir_count`, is the one obtained on the tree without the entries whose name starts
with `$` and without everything below them, and every observed path is reached from
the root through names of which none starts with `$`. -/
theorem C6_dollar_entries_skipped (root_dir : String) (d : Int) (isdir : Bool)
    (l : Listing) :
    Multi.scan root_dir d isdir l = Multi.scan root_dir d isdir (stripDollar l) ∧
    ∀ o ∈ (Multi.scan root_dir d isdir l).fsizes, ∃ names : List String,
      names ≠ [] ∧ (∀ n ∈ names, startsWithDollar n = false) ∧
      o.1 = pathFrom root_dir names :=
  ⟨(Multi.scanDir_stripDir d ⟨root_dir, isdir, l⟩).symm,
    Multi.scanDir_paths d ⟨root_dir, isdir, l⟩⟩

/-- C7: for every directory tree and every depth d >= 0 (an `int`), after
`process_directory(root, d)` of multi.cpp `dir_count` is the number of directories at
the levels 0 .. d that pass the accessibility test and are reached from the root
through directories that pass it and whose names do not start with `$`. -/
theorem C7_dir_count (root_dir : String) (d : Int) (isdir : Bool) (l : Listing)
    (h0 : 0 ≤ d) (h2 : d ≤ 2147483647) :
    (Multi.scan root_dir d isdir l).dir_count
      = (countedDirs d.toNat ⟨root_dir, isdir, l⟩).length := by
  obtain ⟨n, rfl⟩ : ∃ n : Nat, d = (n : Int) := ⟨d.toNat, by omega⟩
  exact (Multi.scanDir_levels n h2 ⟨root_dir, isdir, l⟩).2.2

/-- C7 at a root with an accessible subdirectory `s` (holding a subdirectory `t`), an
inaccessible subdirectory `u` and a `$` subdirectory, for the depths 1 and 2. -/
theorem C7_dir_count_witness :
    (Multi.scan "C:\\" 1 true
      (.dir "s" true (.dir "t" true .nil .nil)
        (.dir "u" false .nil (.dir "$v" true .nil .nil)))).dir_count = 2 ∧
    (Multi.scan "C:\\" 2 true
      (.dir "s" true (.dir "t" true .nil .nil)
        (.dir "u" false .nil (.dir "$v" true .nil .nil)))).dir_count = 3 ∧
    (countedDirs (2 : Int).toNat ⟨"C:\\", true,
      (.dir "s" true (.dir "t" true .nil .nil)
        (.dir "u" false .nil (.dir "$v" true .nil .nil)))⟩).map DirEntry.path
      = ["C:\\", "C:\\s", "C:\\s\\t"] ∧
    (Multi.scan "C:\\" 2 true
      (.dir "s" true (.dir "t" true .nil .nil)
        (.dir "u" false .nil (.dir "$v" true .nil .nil)))).dir_count
      = (countedDirs (2 : Int).toNat ⟨"C:\\", true,
          (.dir "s" true (.dir "t" true .nil .nil)
            (.dir "u" false .nil (.dir "$v" true .nil .nil)))⟩).length :=
  ⟨by decide, by decide, by decide,
    C7_dir_count "C:\\" 2 true
      (.dir "s" true (.dir "t" true .nil .nil)
        (.dir "u" false .nil (.dir "$v" true .nil .nil)))
      (by decide) (by decide)⟩

/-- C8 fails as stated: with depth 1, a root that holds one accessible subdirectory
gives a directories-traversed count of 2, not 1. -/
theorem C8_counterexample :
    (Multi.scan ROOT_DIR 1 true (.dir "sub" true .nil .nil)).dir_count = 2 := by
  decide

/-- C8 as amended: with depth 1 and an accessible root, `process_directory(root, 1)` of
multi.cpp observes exactly the immediate readable files of the root whose names do not
start with `$`, and `dir_count` is 1 plus the number of immediate subdirectories of the
root that pass the accessibility test and whose names do not start with `$`. -/
theorem C8_depth_one (root_dir : String) (l : Listing) :
    (Multi.scan root_dir 1 true l).fsizes = filesOf root_dir l ∧
    (Multi.scan root_dir 1 true l).dir_count
      = 1 + ((subdirsOf root_dir l).filter (fun c => c.isdir)).length := by
  have h := Multi.scanDir_of_ne 1 (by decide) ⟨root_dir, true, l⟩
  have hw : wrapInt32 (1 - 1) = 0 := by decide
  rw [hw] at h
  show (Multi.scanDir 1 ⟨root_dir, true, l⟩).fsizes = _ ∧
    (Multi.scanDir 1 ⟨root_dir, true, l⟩).dir_count = _
  rw [h]
  constructor
  · simp [Multi.scanDir_zero, filesAtLevel, dirsAtLevel]
  · show (dirsAtLevel 0 ⟨root_dir, true, l⟩).length + _ = _
    have hs : (List.map (fun c => (Multi.scanDir 0 c).dir_count)
        (children ⟨root_dir, true, l⟩)).sum
        = ((children ⟨root_dir, true, l⟩).flatMap (dirsAtLevel 0)).length := by
      rw [List.length_flatMap]
      congr 1
      exact List.map_congr_left (fun c _ => by rw [Multi.scanDir_zero]; rfl)
    rw [hs, flatMap_dirsAtLevel_zero]
    simp [dirsAtLevel, children]

/-! ### A file whose size query fails -/

theorem unreadable_depth_ne {root_dir : String} {depth : Int} {l l1 : Listing}
    {parent name : String} (h : UnreadableAt root_dir depth l l1 parent name) :
    depth ≠ 0 := by
  induction h with
  | here _ _ _ _ hd _ => exact hd
  | after_file _ _ _ _ _ _ _ _ _ ih => exact ih
  | after_dir _ _ _ _ _ _ _ _ _ _ ih => exact ih
  | inside _ _ _ _ _ _ _ _ hd _ _ _ => exact hd

namespace Multi

theorem spawnAll_dir_empty (root_dir : String) (depth : Int) (n : String) (isdir : Bool)
    (sub rest : Listing) (hn : startsWithDollar n = false) :
    spawnAll root_dir depth (.dir n isdir sub rest) Accumulator.empty
      = (scanDir (wrapInt32 (depth - 1)) ⟨joinPath root_dir n, isdir, sub⟩).merge
          (spawnAll root_dir depth rest Accumulator.empty) := by
  simp only [spawnAll, hn, Bool.false_eq_true, if_false]
  rw [spawnAll_merge]
  rfl

theorem scanDir_true_of_ne (depth : Int) (hd : depth ≠ 0) (path : String) (l : Listing) :
    scanDir depth ⟨path, true, l⟩
      = (immediate path l).merge (spawnAll path depth l Accumulator.empty) := by
  rw [scanDir_eq, processWith_eq]
  have h2 : ¬ (depth = 0 ∧ l ≠ .nil) := fun h => hd h.1
  simp only [Bool.true_eq_false, if_false, h2]
  rw [spawnAll_merge, Accumulator.empty_merge]

/-- Removing one file whose size query fails and is made by the scan changes nothing
in what the entry loop observes and in what the children contribute, except for one
occurrence of the path of the file among the errors. -/
theorem unreadable_spawn {root_dir : String} {depth : Int} {l l1 : Listing}
    {parent name : String} (h : UnreadableAt root_dir depth l l1 parent name) :
    filesOf root_dir l = filesOf root_dir l1 ∧
    (spawnAll root_dir depth l Accumulator.empty).fsizes
      = (spawnAll root_dir depth l1 Accumulator.empty).fsizes ∧
    (spawnAll root_dir depth l Accumulator.empty).file_count
      = (spawnAll root_dir depth l1 Accumulator.empty).file_count ∧
    (spawnAll root_dir depth l Accumulator.empty).dir_count
      = (spawnAll root_dir depth l1 Accumulator.empty).dir_count ∧
    (errorsOf root_dir l
        ++ (spawnAll root_dir depth l Accumulator.empty).error_files).Perm
      (joinPath parent name ::
        (errorsOf root_dir l1
          ++ (spawnAll root_dir depth l1 Accumulator.empty).error_files)) := by
  induction h with
  | here root_dir depth name rest hd hn =>
    refine ⟨by simp [filesOf, hn], rfl, rfl, rfl, ?_⟩
    simp [errorsOf, hn, spawnAll]
  | after_file root_dir depth n size rest rest1 parent name _ ih =>
    obtain ⟨i1, i2, i3, i4, i5⟩ := ih
    refine ⟨?_, i2, i3, i4, ?_⟩
    · simp only [filesOf, i1]
    · simp only [errorsOf, spawnAll]
      by_cases hn : startsWithDollar n = true
      · rw [if_pos hn, if_pos hn]; exact i5
      · rw [if_neg hn, if_neg hn]
        cases size with
        | some sz => exact i5
        | none => exact (i5.cons _).trans (List.Perm.swap _ _ _)
  | after_dir root_dir depth n isdir sub rest rest1 parent name _ ih =>
    obtain ⟨i1, i2, i3, i4, i5⟩ := ih
    by_cases hn : startsWithDollar n = true
    · refine ⟨?_, ?_, ?_, ?_, ?_⟩ <;> simp only [filesOf, errorsOf, spawnAll, hn, if_true]
      · exact i1
      · exact i2
      · exact i3
      · exact i4
      · exact i5
    · have hn1 : startsWithDollar n = false := by simpa using hn
      rw [spawnAll_dir_empty _ _ _ _ _ _ hn1, spawnAll_dir_empty _ _ _ _ _ _ hn1]
      refine ⟨?_, ?_, ?_, ?_, ?_⟩
      · simpa only [filesOf] using i1
      · simp only [Accumulator.merge, i2]
      · simp only [Accumulator.merge, i3]
      · simp only [Accumulator.merge, i4]
      · simp only [Accumulator.merge, errorsOf]
        exact (List.perm_append_comm_assoc _ _ _).trans
          (((List.Perm.append_left _ i5).trans List.perm_middle).trans
            (List.Perm.cons _ (List.perm_append_comm_assoc _ _ _)))
  | inside root_dir depth n sub sub1 rest parent name hd hn hsub ih =>
    obtain ⟨i1, i2, i3, i4, i5⟩ := ih
    have hd1 := unreadable_depth_ne hsub
    rw [spawnAll_dir_empty _ _ _ _ _ _ hn, spawnAll_dir_empty _ _ _ _ _ _ hn,
      scanDir_true_of_ne _ hd1, scanDir_true_of_ne _ hd1]
    refine ⟨?_, ?_, ?_, ?_, ?_⟩
    · simp only [filesOf]
    · simp only [Accumulator.merge, immediate, i1, i2]
    · simp only [Accumulator.merge, immediate, i1, i3]
    · simp only [Accumulator.merge, immediate, i4]
    · simp only [Accumulator.merge, immediate, errorsOf]
      exact (List.Perm.append_left _ (List.Perm.append_right _ i5)).trans
        List.perm_middle

end Multi

theorem dirsAtLevel_paths_mono (e e1 : DirEntry) (hp : e.path = e1.path)
    (hi : e.isdir = e1.isdir) (hc : ∀ c ∈ children e1, c ∈ children e) (k : Nat) :
    ∀ q ∈ (dirsAtLevel k e1).map DirEntry.path, q ∈ (dirsAtLevel k e).map DirEntry.path := by
  intro q hq
  cases k with
  | zero =>
    by_cases h : e1.isdir = true
    · simp only [dirsAtLevel, h, hi, if_true, List.map_cons, List.map_nil] at hq ⊢
      rw [hp]; exact hq
    · simp [dirsAtLevel, h] at hq
  | succ k =>
    simp only [dirsAtLevel, List.mem_map, List.mem_flatMap] at hq ⊢
    obtain ⟨x, ⟨c, hc1, hx⟩, rfl⟩ := hq
    exact ⟨x, ⟨c, hc c hc1, hx⟩, rfl⟩

/-- The directory that holds the file of `UnreadableAt` is one of the reached
accessible directories, at a level below the depth. -/
theorem unreadable_parent_level {root_dir : String} {depth : Int} {l l1 : Listing}
    {parent name : String} (h : UnreadableAt root_dir depth l l1 parent name) :
    ∀ n : Nat, depth = (n : Int) → (n : Int) ≤ 2147483647 →
      ∃ k, k < n ∧ parent ∈ (dirsAtLevel k ⟨root_dir, true, l⟩).map DirEntry.path := by
  induction h with
  | here root_dir depth name rest hd hn =>
    intro n hdn _
    exact ⟨0, by omega, by simp [dirsAtLevel]⟩
  | after_file root_dir depth m size rest rest1 parent name _ ih =>
    intro n hdn hn
    obtain ⟨k, hk, hq⟩ := ih n hdn hn
    refine ⟨k, hk, dirsAtLevel_paths_mono ⟨root_dir, true, .file m size rest⟩
      ⟨root_dir, true, rest⟩ rfl rfl ?_ k _ hq⟩
    intro c hc
    simpa [children, subdirsOf] using hc
  | after_dir root_dir depth m isdir sub rest rest1 parent name _ ih =>
    intro n hdn hn
    obtain ⟨k, hk, hq⟩ := ih n hdn hn
    refine ⟨k, hk, dirsAtLevel_paths_mono ⟨root_dir, true, .dir m isdir sub rest⟩
      ⟨root_dir, true, rest⟩ rfl rfl ?_ k _ hq⟩
    intro c hc
    simp only [children, if_true, subdirsOf] at hc ⊢
    by_cases hm : startsWithDollar m = true
    · rw [if_pos hm]; exact hc
    · rw [if_neg hm]; exact List.mem_cons_of_mem _ hc
  | inside root_dir depth m sub sub1 rest parent name hd hm hsub ih =>
    intro n hdn hn
    subst hdn
    have hn0 : n ≠ 0 := fun h0 => hd (by simp [h0])
    obtain ⟨n1, rfl⟩ : ∃ n1, n = n1 + 1 := ⟨n - 1, by omega⟩
    have hw : wrapInt32 ((((n1 + 1 : Nat) : Int)) - 1) = (n1 : Int) := by
      unfold wrapInt32
      push_cast at hn ⊢
      omega
    obtain ⟨k, hk, hq⟩ := ih n1 hw (by push_cast at hn; omega)
    refine ⟨k + 1, by omega, ?_⟩
    simp only [dirsAtLevel, List.mem_map, List.mem_flatMap] at hq ⊢
    obtain ⟨x, hx, rfl⟩ := hq
    refine ⟨x, ⟨⟨joinPath root_dir m, true, sub⟩, ?_, hx⟩, rfl⟩
    simp [children, subdirsOf, hm]

/-! ### Claim C9 -/

/-- C9: for every directory tree and depth d >= 1 (an `int`) in which
`process_directory(root, d)` of multi.cpp queries the size of a file `name` of the
directory `parent` and the query fails, the scan records the path of the file in
`error_files`, and apart from that entry it gives what it gives on the tree `l1`
without the file: the same errors, the same observations in the same order, the same
`file_count`, which is the number of recorded observations, and the same `dir_count`,
which counts the reached accessible directories, `parent` among them. -/
theorem C9_unreadable_file_recorded (root_dir : String) (d : Int) (l l1 : Listing)
    (parent name : String) (h1 : 1 ≤ d) (h2 : d ≤ 2147483647)
    (h : UnreadableAt root_dir d l l1 parent name) :
    joinPath parent name ∈ (Multi.scan root_dir d true l).error_files ∧
    (Multi.scan root_dir d true l).error_files.Perm
      (joinPath parent name :: (Multi.scan root_dir d true l1).error_files) ∧
    (Multi.scan root_dir d true l).fsizes = (Multi.scan root_dir d true l1).fsizes ∧
    (Multi.scan root_dir d true l).file_count
      = (Multi.scan root_dir d true l1).file_count ∧
    (Multi.scan root_dir d true l).file_count
      = (Multi.scan root_dir d true l).fsizes.length ∧
    (Multi.scan root_dir d true l).dir_count
      = (Multi.scan root_dir d true l1).dir_count ∧
    (Multi.scan root_dir d true l).dir_count
      = (countedDirs d.toNat ⟨root_dir, true, l⟩).length ∧
    parent ∈ (countedDirs d.toNat ⟨root_dir, true, l⟩).map DirEntry.path := by
  have hd : d ≠ 0 := by omega
  obtain ⟨i1, i2, i3, i4, i5⟩ := Multi.unreadable_spawn h
  have e : Multi.scan root_dir d true l
      = (immediate root_dir l).merge (Multi.spawnAll root_dir d l Accumulator.empty) :=
    Multi.scanDir_true_of_ne d hd root_dir l
  have e1 : Multi.scan root_dir d true l1
      = (immediate root_dir l1).merge (Multi.spawnAll root_dir d l1 Accumulator.empty) :=
    Multi.scanDir_true_of_ne d hd root_dir l1
  have hperm : (Multi.scan root_dir d true l).error_files.Perm
      (joinPath parent name :: (Multi.scan root_dir d true l1).error_files) := by
    rw [e, e1]; exact i5
  obtain ⟨n, rfl⟩ : ∃ n : Nat, d = (n : Int) := ⟨d.toNat, by omega⟩
  obtain ⟨k, hk, hq⟩ := unreadable_parent_level h n rfl h2
  refine ⟨hperm.symm.subset (List.mem_cons_self _ _), hperm, ?_, ?_,
    Multi.scanDir_file_count _ ⟨root_dir, true, l⟩, ?_,
    (Multi.scanDir_levels n h2 ⟨root_dir, true, l⟩).2.2, ?_⟩
  · rw [e, e1]; simp only [Accumulator.merge, immediate, i1, i2]
  · rw [e, e1]; simp only [Accumulator.merge, immediate, i1, i3]
  · rw [e, e1]; simp only [Accumulator.merge, immediate, i4]
  · simp only [Int.toNat_ofNat, countedDirs, List.mem_map, List.mem_flatMap] at hq ⊢
    obtain ⟨x, hx, rfl⟩ := hq
    exact ⟨x, ⟨k, List.mem_range.2 (by omega), hx⟩, rfl⟩

/-- C9 at a root with the file `a` and the subdirectory `s`, which holds the unreadable
file `bad` and the file `b`, for the depth 2. -/
theorem C9_unreadable_file_recorded_witness :
    Multi.scan "C:\\" 2 true
        (.file "a" (some 5)
          (.dir "s" true (.file "bad" none (.file "b" (some 7) .nil)) .nil))
      = ⟨[("C:\\a", 5), ("C:\\s\\b", 7)], ["C:\\s\\bad"], 2, 2⟩ ∧
    Multi.scan "C:\\" 2 true
        (.file "a" (some 5) (.dir "s" true (.file "b" (some 7) .nil) .nil))
      = ⟨[("C:\\a", 5), ("C:\\s\\b", 7)], [], 2, 2⟩ ∧
    UnreadableAt "C:\\" 2
      (.file "a" (some 5)
        (.dir "s" true (.file "bad" none (.file "b" (some 7) .nil)) .nil))
      (.file "a" (some 5) (.dir "s" true (.file "b" (some 7) .nil) .nil))
      "C:\\s" "bad" ∧
    (joinPath "C:\\s" "bad" ∈ (Multi.scan "C:\\" 2 true
        (.file "a" (some 5)
          (.dir "s" true (.file "bad" none (.file "b" (some 7) .nil)) .nil))).error_files ∧
    (Multi.scan "C:\\" 2 true
        (.file "a" (some 5)
          (.dir "s" true (.file "bad" none (.file "b" (some 7) .nil)) .nil))).error_files.Perm
      (joinPath "C:\\s" "bad" :: (Multi.scan "C:\\" 2 true
        (.file "a" (some 5) (.dir "s" true (.file "b" (some 7) .nil) .nil))).error_files) ∧
    (Multi.scan "C:\\" 2 true
        (.file "a" (some 5)
          (.dir "s" true (.file "bad" none (.file "b" (some 7) .nil)) .nil))).fsizes
      = (Multi.scan "C:\\" 2 true
        (.file "a" (some 5) (.dir "s" true (.file "b" (some 7) .nil) .nil))).fsizes ∧
    (Multi.scan "C:\\" 2 true
        (.file "a" (some 5)
          (.dir "s" true (.file "bad" none (.file "b" (some 7) .nil)) .nil))).file_count
      = (Multi.scan "C:\\" 2 true
        (.file "a" (some 5) (.dir "s" true (.file "b" (some 7) .nil) .nil))).file_count ∧
    (Multi.scan "C:\\" 2 true
        (.file "a" (some 5)
          (.dir "s" true (.file "bad" none (.file "b" (some 7) .nil)) .nil))).file_count
      = (Multi.scan "C:\\" 2 true
        (.file "a" (some 5)
          (.dir "s" true (.file "bad" none (.file "b" (some 7) .nil)) .nil))).fsizes.length ∧
    (Multi.scan "C:\\" 2 true
        (.file "a" (some 5)
          (.dir "s" true (.file "bad" none (.file "b" (some 7) .nil)) .nil))).dir_count
      = (Multi.scan "C:\\" 2 true
        (.file "a" (some 5) (.dir "s" true (.file "b" (some 7) .nil) .nil))).dir_count ∧
    (Multi.scan "C:\\" 2 true
        (.file "a" (some 5)
          (.dir "s" true (.file "bad" none (.file "b" (some 7) .nil)) .nil))).dir_count
      = (countedDirs (2 : Int).toNat ⟨"C:\\", true,
          (.file "a" (some 5)
            (.dir "s" true (.file "bad" none (.file "b" (some 7) .nil)) .nil))⟩).length ∧
    "C:\\s" ∈ (countedDirs (2 : Int).toNat ⟨"C:\\", true,
        (.file "a" (some 5)
          (.dir "s" true (.file "bad" none (.file "b" (some 7) .nil)) .nil))⟩).map
      DirEntry.path) :=
  have hrel : UnreadableAt "C:\\" 2
      (.file "a" (some 5)
        (.dir "s" true (.file "bad" none (.file "b" (some 7) .nil)) .nil))
      (.file "a" (some 5) (.dir "s" true (.file "b" (some 7) .nil) .nil))
      "C:\\s" "bad" :=
    UnreadableAt.after_file _ _ _ _ _ _ _ _
      (UnreadableAt.inside "C:\\" 2 "s" _ _ _ _ _ (by decide) (by decide)
        (UnreadableAt.here (joinPath "C:\\" "s") (wrapInt32 (2 - 1)) "bad" _
          (by decide) (by decide)))
  ⟨by decide, by decide, hrel,
    C9_unreadable_file_recorded "C:\\" 2 _ _ "C:\\s" "bad" (by decide) (by decide) hrel⟩

/-! ## Properties of the level loop of main.cpp -/

namespace Main

theorem entryLoop_eq (root_dir : String) (l : Listing) :
    ∀ s : State,
      entryLoop root_dir l s
        = ⟨s.dirs ++ subdirsOf root_dir l, s.fsizes ++ filesOf root_dir l,
            s.error_files ++ errorsOf root_dir l⟩ := by
  induction l with
  | nil => intro s; simp [entryLoop, subdirsOf, filesOf, errorsOf]
  | file name size rest ih =>
    intro s
    simp only [entryLoop, subdirsOf, filesOf, errorsOf]
    by_cases hn : startsWithDollar name = true
    · rw [if_pos hn, if_pos hn, if_pos hn]; exact ih s
    · rw [if_neg hn, if_neg hn, if_neg hn]
      cases size with
      | none => simp [ih]
      | some sz => simp [ih]
  | dir name isdir sub rest _ ih =>
    intro s
    simp only [entryLoop, subdirsOf, filesOf, errorsOf]
    by_cases hn : startsWithDollar name = true
    · rw [if_pos hn, if_pos hn]; exact ih s
    · rw [if_neg hn, if_neg hn]
      simp [ih]

theorem process_directory_eq (e : DirEntry) (s : State) :
    process_directory e.path e.isdir e.listing s
      = ⟨s.dirs ++ children e, s.fsizes ++ filesAtLevel 0 e,
          s.error_files ++ errorsAtLevel 0 e⟩ := by
  unfold process_directory
  by_cases h : e.isdir = true
  · simp [h, entryLoop_eq, children, filesAtLevel, errorsAtLevel, dirsAtLevel]
  · simp [h, children, filesAtLevel, errorsAtLevel, dirsAtLevel]

/-- One pass over a queue in which no path is excluded. -/
theorem levelPass_eq (q : List DirEntry) (hq : ∀ e ∈ q, excluded e.path = false) :
    ∀ s : State,
      levelPass q s
        = ⟨s.dirs ++ q.flatMap children, s.fsizes ++ q.flatMap (filesAtLevel 0),
            s.error_files ++ q.flatMap (errorsAtLevel 0)⟩ := by
  induction q with
  | nil => intro s; simp [levelPass]
  | cons e q ih =>
    intro s
    have he := hq e (List.mem_cons_self _ _)
    simp only [levelPass, he, Bool.false_eq_true, if_false]
    rw [ih (fun c hc => hq c (List.mem_cons_of_mem _ hc)), process_directory_eq]
    simp

end Main

theorem noExcludedDirs_subdirsOf (root_dir : String) (l : Listing)
    (h : noExcludedDirs root_dir l = true) :
    ∀ c ∈ subdirsOf root_dir l,
      Main.excluded c.path = false ∧ noExcludedDirs c.path c.listing = true := by
  induction l with
  | nil => intro c hc; simp [subdirsOf] at hc
  | file name size rest ih =>
    intro c hc
    exact ih (by simpa [noExcludedDirs] using h) c (by simpa [subdirsOf] using hc)
  | dir name isdir sub rest _ ih =>
    intro c hc
    simp only [noExcludedDirs, Bool.and_eq_true, Bool.or_eq_true, Bool.not_eq_true'] at h
    simp only [subdirsOf] at hc
    by_cases hn : startsWithDollar name = true
    · rw [if_pos hn] at hc
      exact ih h.2 c hc
    · rw [if_neg hn] at hc
      rcases List.mem_cons.1 hc with rfl | hc
      · rcases h.1 with h1 | h1
        · exact absurd h1 hn
        · exact h1
      · exact ih h.2 c hc

theorem noExcludedDirs_children (q : List DirEntry)
    (hq : ∀ e ∈ q, Main.excluded e.path = false ∧ noExcludedDirs e.path e.listing = true) :
    ∀ c ∈ q.flatMap children,
      Main.excluded c.path = false ∧ noExcludedDirs c.path c.listing = true := by
  intro c hc
  obtain ⟨e, he, hce⟩ := List.mem_flatMap.1 hc
  unfold children at hce
  by_cases h : e.isdir = true
  · rw [if_pos h] at hce
    exact noExcludedDirs_subdirsOf _ _ (hq e he).2 c hce
  · rw [if_neg h] at hce
    simp at hce

theorem flatMap_const_nil {α β : Type} (l : List α) :
    l.flatMap (fun _ => ([] : List β)) = [] := by
  induction l with
  | nil => rfl
  | cons a l _ => simp

namespace Main

/-- The level loop from a queue `s.dirs` below which no path is excluded: `rounds`
rounds add the files and the errors of the levels `0 .. rounds - 1` below the queue. -/
theorem levelLoop_eq (rounds : Nat) :
    ∀ s : State,
      (∀ e ∈ s.dirs, excluded e.path = false ∧ noExcludedDirs e.path e.listing = true) →
      (levelLoop rounds s).fsizes
          = s.fsizes ++ (List.range rounds).flatMap
              (fun k => s.dirs.flatMap (filesAtLevel k)) ∧
      (levelLoop rounds s).error_files
          = s.error_files ++ (List.range rounds).flatMap
              (fun k => s.dirs.flatMap (errorsAtLevel k)) := by
  induction rounds with
  | zero => intro s _; simp [levelLoop]
  | succ n ih =>
    intro s hs
    simp only [levelLoop]
    by_cases hemp : s.dirs = []
    · simp [hemp, flatMap_const_nil]
    · have hne : s.dirs.isEmpty = false := by
        cases hd : s.dirs with
        | nil => exact absurd hd hemp
        | cons _ _ => rfl
      simp only [hne, Bool.false_eq_true, if_false]
      rw [levelPass_eq _ (fun e he => (hs e he).1)]
      obtain ⟨f1, f2⟩ := ih ⟨[] ++ s.dirs.flatMap children,
        s.fsizes ++ s.dirs.flatMap (filesAtLevel 0),
        s.error_files ++ s.dirs.flatMap (errorsAtLevel 0)⟩
        (by simpa using noExcludedDirs_children _ hs)
      rw [f1, f2, List.range_succ_eq_map, List.flatMap_cons, List.flatMap_map,
        List.flatMap_cons, List.flatMap_map]
      simp only [List.nil_append, Function.comp_def, Nat.succ_eq_add_one,
        filesAtLevel_succ_fun, errorsAtLevel_succ_fun, List.flatMap_assoc,
        List.append_assoc, and_self]

/-- The scan of main.cpp with a depth d >= 1, on a tree without excluded paths:
the files and the errors of the levels below d, level by level. -/
theorem scan_levels (n : Nat) (isdir : Bool) (l : Listing)
    (hx : noExcludedDirs ROOT_DIR l = true) :
    (scan ((n : Int) + 1) isdir l).fsizes
        = (List.range (n + 1)).flatMap (fun k => filesAtLevel k ⟨ROOT_DIR, isdir, l⟩) ∧
    (scan ((n : Int) + 1) isdir l).error_files
        = (List.range (n + 1)).flatMap
            (fun k => errorsAtLevel k ⟨ROOT_DIR, isdir, l⟩) := by
  unfold scan
  have hr : ((n : Int) + 1 - 1).toNat = n := by omega
  rw [hr, process_directory_eq ⟨ROOT_DIR, isdir, l⟩]
  have hq : ∀ e ∈ children ⟨ROOT_DIR, isdir, l⟩,
      excluded e.path = false ∧ noExcludedDirs e.path e.listing = true := by
    intro c hc
    unfold children at hc
    by_cases h : isdir = true
    · simp only [h, if_true] at hc
      exact noExcludedDirs_subdirsOf _ _ hx c hc
    · simp [h] at hc
  obtain ⟨f1, f2⟩ := levelLoop_eq n ⟨[] ++ children ⟨ROOT_DIR, isdir, l⟩,
    [] ++ filesAtLevel 0 ⟨ROOT_DIR, isdir, l⟩, [] ++ errorsAtLevel 0 ⟨ROOT_DIR, isdir, l⟩⟩
    (by simpa using hq)
  rw [f1, f2, List.range_succ_eq_map, List.flatMap_cons, List.flatMap_map,
    List.flatMap_cons, List.flatMap_map]
  simp only [List.nil_append, Function.comp_def, Nat.succ_eq_add_one,
    filesAtLevel_succ, errorsAtLevel_succ, and_self]

end Main

/-! ### Claim C10 -/

/-- C10 fails as stated: on a root that holds the directory `Windows` with the file
`w.dll`, with depth 2, the level loop of main.cpp skips `C:\Windows` and collects no
observation, whereas `process_directory` of multi.cpp observes `C:\Windows\w.dll`. -/
theorem C10_counterexample :
    (Main.scan 2 true (.dir "Windows" true (.file "w.dll" (some 9) .nil) .nil)).fsizes = [] ∧
    (Multi.scan ROOT_DIR 2 true
      (.dir "Windows" true (.file "w.dll" (some 9) .nil) .nil)).fsizes
      = [("C:\\Windows\\w.dll", 9)] ∧
    ¬ List.Perm ([] : List (String × Nat)) [("C:\\Windows\\w.dll", 9)] := by
  refine ⟨by decide, by decide, ?_⟩
  intro h
  simpa using h.length_eq

/-- C10 as amended: for every directory tree rooted at ROOT_DIR in which no directory
has one of the paths `C:\Documents and Settings`, `C:\Recovery`, `C:\Windows` that
main.cpp excludes, and every depth d >= 1 (an `int`), the level-by-level loop of
main.cpp and `process_directory(root, d)` of multi.cpp collect the same multiset of
(path, size) observations and the same multiset of error paths. -/
theorem C10_sequential_matches_fork_join (d : Int) (isdir : Bool) (l : Listing)
    (h1 : 1 ≤ d) (h2 : d ≤ 2147483647) (hx : noExcludedDirs ROOT_DIR l = true) :
    (Main.scan d isdir l).fsizes.Perm (Multi.scan ROOT_DIR d isdir l).fsizes ∧
    (Main.scan d isdir l).error_files.Perm (Multi.scan ROOT_DIR d isdir l).error_files := by
  obtain ⟨n, rfl⟩ : ∃ n : Nat, d = (n : Int) + 1 := ⟨(d - 1).toNat, by omega⟩
  obtain ⟨m1, m2⟩ := Main.scan_levels n isdir l hx
  have hm := Multi.scanDir_levels (n + 1) (by push_cast; omega) ⟨ROOT_DIR, isdir, l⟩
  rw [m1, m2]
  exact ⟨hm.1.symm, hm.2.1.symm⟩

/-- C10 as amended, at a root with a file, an unreadable file and the directory `Win`
holding a file, for the depth 2. -/
theorem C10_sequential_matches_fork_join_witness :
    Main.scan 2 true
        (.dir "Win" true (.file "w" (some 9) .nil) (.file "a" (some 5) (.file "b" none .nil)))
      = ⟨[], [("C:\\a", 5), ("C:\\Win\\w", 9)], ["C:\\b"]⟩ ∧
    Multi.scan ROOT_DIR 2 true
        (.dir "Win" true (.file "w" (some 9) .nil) (.file "a" (some 5) (.file "b" none .nil)))
      = ⟨[("C:\\a", 5), ("C:\\Win\\w", 9)], ["C:\\b"], 2, 2⟩ ∧
    noExcludedDirs ROOT_DIR
        (.dir "Win" true (.file "w" (some 9) .nil) (.file "a" (some 5) (.file "b" none .nil)))
      = true ∧
    ((Main.scan 2 true
        (.dir "Win" true (.file "w" (some 9) .nil)
          (.file "a" (some 5) (.file "b" none .nil)))).fsizes.Perm
      (Multi.scan ROOT_DIR 2 true
        (.dir "Win" true (.file "w" (some 9) .nil)
          (.file "a" (some 5) (.file "b" none .nil)))).fsizes ∧
    (Main.scan 2 true
        (.dir "Win" true (.file "w" (some 9) .nil)
          (.file "a" (some 5) (.file "b" none .nil)))).error_files.Perm
      (Multi.scan ROOT_DIR 2 true
        (.dir "Win" true (.file "w" (some 9) .nil)
          (.file "a" (some 5) (.file "b" none .nil)))).error_files) :=
  ⟨by decide, by decide, by decide,
    C10_sequential_matches_fork_join 2 true
      (.dir "Win" true (.file "w" (some 9) .nil) (.file "a" (some 5) (.file "b" none .nil)))
      (by decide) (by decide) (by decide)⟩
